import Mathlib

/-!
Verification development for the tmcli repository (Go).

The development shallowly embeds the data-ingestion and monitoring core of
the repository:

* `source/tmutil/tmutil.go` — the status text parser (`parseFields`,
  `parseProgress`, `parseStatusInfo`) and the human-readable formatters
  (`FormatDuration`, `FormatBytesInt64`);
* `source/tmutil/preferences.go` (shipped inside `snapshot.go`) — the
  preferences plist parser (`parseBackupPrefs`, `parseDestinationBlock`)
  and the derived accessors on `BackupPrefs`;
* `source/tmutil/backup.go` — the idle-status report builder
  (`formatIdleStatus`);
* `source/ui/monitor.go` — the polling monitor model (`MonitorModel`,
  `Update`, `renderBody`).

Modelling conventions:

* Go `time.Time` is embedded as `Int`, the number of seconds since the Unix
  epoch of the instant (sub-second precision never occurs in the parsed
  text).  The Go zero `time.Time` (0001-01-01T00:00:00Z) is the constant
  `goZeroTime`; `IsZero` is equality with it, `After` is `<` flipped and
  `Sub` is integer subtraction (the saturation of Go's 64-bit `Duration` at
  spans of ±292 years is idealised away).  Go `time.Duration` is embedded
  as `Int` seconds.
* Go `float64` fields parsed out of the status text are embedded as exact
  rationals (`ℚ`); `%.1f` formatting is embedded as exact rounding half to
  even.  No claim in scope depends on binary floating-point rounding.
* Go maps are embedded as functions `String → Option String`; assignment is
  pointwise update (last write wins), lookup with a missing key yields the
  Go zero value through `Option.getD`.
* Strings are processed through executable `List Char` primitives
  (`trimChars`, `splitFirstAux`, …) that mirror the `strings` package
  functions used by the source (`TrimSpace`, `SplitN`, `TrimSuffix`,
  `Trim`, `HasPrefix`, `Contains`, `Split`).
* Terminal styling (`lipgloss` style `Render`) and the time-zone dependent
  clock formatting (`t.Local().Format(layout)`) are external collaborators
  of the core (spec §6); they are passed in as function parameters.
-/

namespace TMCli

/-! ## List-character primitives mirroring the Go `strings` package -/

/-- Mirrors `strings.HasPrefix` on rune lists. -/
def isPrefixL : List Char → List Char → Bool
  | [], _ => true
  | _ :: _, [] => false
  | a :: as, b :: bs => a == b && isPrefixL as bs

/-- Mirrors `strings.HasSuffix` on rune lists. -/
def isSuffixL (p l : List Char) : Bool := isPrefixL p.reverse l.reverse

/-- Locate the first occurrence of `sep` in a rune list, returning the part
before it and the part after it (the engine behind `strings.SplitN _ _ 2` and
`strings.Contains`). -/
def splitFirstAux (sep : List Char) : List Char → Option (List Char × List Char)
  | [] => none
  | c :: t =>
    if isPrefixL sep (c :: t) then some ([], (c :: t).drop sep.length)
    else
      match splitFirstAux sep t with
      | some (a, b) => some (c :: a, b)
      | none => none

/-- Mirrors `strings.Contains`, restricted to a non-empty separator. -/
def containsSubL (sep l : List Char) : Bool := (splitFirstAux sep l).isSome

/-- Drop characters satisfying `p` from both ends of a rune list
(`strings.TrimSpace` / `strings.Trim` with a one-character cut set). -/
def dropAround (p : Char → Bool) (l : List Char) : List Char :=
  ((l.dropWhile p).reverse.dropWhile p).reverse

/-- Mirrors `strings.TrimSpace` on rune lists. -/
def trimChars (l : List Char) : List Char := dropAround (fun c => c.isWhitespace) l

/-- Mirrors `strings.Trim _ "\""` on rune lists: strips all leading and trailing
double-quote characters. -/
def trimQuotes (l : List Char) : List Char := dropAround (fun c => c == '"') l

/-- Mirrors `strings.TrimSuffix` on rune lists. -/
def trimSuffixL (suf l : List Char) : List Char :=
  if isSuffixL suf l then l.take (l.length - suf.length) else l

/-- Mirrors `strings.Split _ "\n"` on rune lists: the list of lines (the final
fragment is kept even when empty, as in Go). -/
def splitNL : List Char → List (List Char)
  | [] => [[]]
  | c :: t =>
    match splitNL t with
    | [] => [[c]]
    | h :: r => if c == '\n' then [] :: h :: r else (c :: h) :: r

/-- Lines of a raw document, as rune lists. -/
def linesOf (raw : String) : List (List Char) := splitNL raw.data

/-- Whether a rune list starts with the given character. -/
def headIs (c : Char) : List Char → Bool
  | [] => false
  | x :: _ => x == c

/-- Whether a rune list ends with the given character. -/
def lastIs (c : Char) (l : List Char) : Bool := headIs c l.reverse

/-! ## The embedded clock: `time.Time` as seconds since the Unix epoch -/

/-- Proleptic-Gregorian day number of a civil date relative to 1970-01-01
(Howard Hinnant's `days_from_civil`). -/
def daysFromCivil (y m d : Int) : Int :=
  let y' := if m ≤ 2 then y - 1 else y
  let era := (if 0 ≤ y' then y' else y' - 399) / 400
  let yoe := y' - era * 400
  let doy := (153 * ((m + 9) % 12) + 2) / 5 + d - 1
  let doe := yoe * 365 + yoe / 4 - yoe / 100 + doy
  era * 146097 + doe - 719468

/-- Seconds since the Unix epoch of a civil UTC date-time. -/
def civilSeconds (y mo d h mi s : Int) : Int :=
  daysFromCivil y mo d * 86400 + h * 3600 + mi * 60 + s

/-- The Go zero `time.Time`, 0001-01-01T00:00:00Z, in our encoding. -/
def goZeroTime : Int := civilSeconds 1 1 1 0 0 0

/-- Gregorian leap-year test. -/
def isLeapYear (y : Int) : Bool := y % 4 == 0 && (y % 100 != 0 || y % 400 == 0)

/-- Number of days of a month (`time.Parse` rejects out-of-range days). -/
def daysInMonth (y m : Int) : Int :=
  if m = 2 then (if isLeapYear y then 29 else 28)
  else if m = 4 ∨ m = 6 ∨ m = 9 ∨ m = 11 then 30
  else 31

/-- Numeric value of a decimal digit character, if it is one. -/
def digitVal (c : Char) : Option Int :=
  if c.isDigit then some ((c.toNat : Int) - 48) else none

/-- Value of a two-digit run. -/
def twoDigits (a b : Char) : Option Int := do
  let x ← digitVal a
  let y ← digitVal b
  pure (x * 10 + y)

/-- Value of a four-digit run. -/
def fourDigits (a b c d : Char) : Option Int := do
  let x ← twoDigits a b
  let y ← twoDigits c d
  pure (x * 100 + y)

/-- Validate the civil fields and build the instant, applying a zone offset
given in signed minutes (the instant is the wall reading minus the offset). -/
def buildInstant (y mo d h mi s offMin : Int) : Option Int :=
  if 1 ≤ mo ∧ mo ≤ 12 ∧ 1 ≤ d ∧ d ≤ daysInMonth y mo ∧
      h ≤ 23 ∧ mi ≤ 59 ∧ s ≤ 59 then
    some (civilSeconds y mo d h mi s - offMin * 60)
  else none

/-- Mirrors `time.Parse` with layout `"2006-01-02 15:04:05 -0700"` (also used for the
plist layout `"2006-01-02 15:04:05 +0000"`; Go accepts any numeric zone
offset for either layout).  Returns `none` where Go returns an error. -/
def parseDateTime (str : String) : Option Int :=
  match str.data with
  | [y1, y2, y3, y4, '-', m1, m2, '-', d1, d2, ' ',
     h1, h2, ':', n1, n2, ':', s1, s2, ' ', sg, z1, z2, z3, z4] => do
    let y ← fourDigits y1 y2 y3 y4
    let mo ← twoDigits m1 m2
    let d ← twoDigits d1 d2
    let h ← twoDigits h1 h2
    let mi ← twoDigits n1 n2
    let s ← twoDigits s1 s2
    let zh ← twoDigits z1 z2
    let zm ← twoDigits z3 z4
    let off ← if sg = '+' then some (zh * 60 + zm)
              else if sg = '-' then some (-(zh * 60 + zm))
              else none
    buildInstant y mo d h mi s off
  | _ => none

/-- Mirrors `time.Parse` with layout `"2006-01-02-150405"` (backup path names). -/
def parsePathDate (str : String) : Option Int :=
  match str.data with
  | [y1, y2, y3, y4, '-', m1, m2, '-', d1, d2, '-', h1, h2, n1, n2, s1, s2] => do
    let y ← fourDigits y1 y2 y3 y4
    let mo ← twoDigits m1 m2
    let d ← twoDigits d1 d2
    let h ← twoDigits h1 h2
    let mi ← twoDigits n1 n2
    let s ← twoDigits s1 s2
    buildInstant y mo d h mi s 0
  | _ => none

/-- Mirrors `filepath.Base`: the last path component, with trailing slashes removed. -/
def filepathBase (s : String) : String :=
  if s.data = [] then "." else
  let l := (s.data.reverse.dropWhile (fun c => c == '/')).reverse
  if l = [] then "/" else ⟨(l.reverse.takeWhile (fun c => !(c == '/'))).reverse⟩

/-- Embeds `parseBackupDate` from `restore.go`: date embedded in the last component
of a backup path. -/
def parseBackupDate (backupPath : String) : Option Int :=
  parsePathDate (filepathBase backupPath)

/-! ## Numeric parsing and formatting -/

/-- Value of a non-empty all-digit run. -/
def digitsVal (l : List Char) : Option Int :=
  if l ≠ [] ∧ l.all Char.isDigit then
    some (l.foldl (fun acc c => acc * 10 + ((c.toNat : Int) - 48)) 0)
  else none

/-- Mirrors `strconv.ParseInt _ 10 64`, with 64-bit overflow idealised away (overflow
makes Go report an error; no claim in scope reaches such magnitudes). -/
def parseGoInt (s : String) : Option Int :=
  match s.data with
  | '+' :: t => digitsVal t
  | '-' :: t => (digitsVal t).map Int.neg
  | l => digitsVal l

/-- Mirrors `strconv.ParseFloat _ 64` restricted to plain decimal notation
(`[sign] digits [. digits]`), the only shape occurring in `tmutil` output;
the value is kept exact as a rational. -/
def parseGoFloat (s : String) : Option ℚ :=
  let core : List Char → Option ℚ := fun l =>
    match splitFirstAux ['.'] l with
    | none => (digitsVal l).map (fun n => (n : ℚ))
    | some (a, b) =>
      if a = [] ∧ b = [] then none
      else if (a = [] ∨ a.all Char.isDigit) ∧ (b = [] ∨ b.all Char.isDigit) then
        let ip := ((digitsVal a).getD 0 : ℚ)
        let fp := ((digitsVal b).getD 0 : ℚ) / (10 : ℚ) ^ b.length
        some (ip + fp)
      else none
  match s.data with
  | '+' :: t => core t
  | '-' :: t => (core t).map Neg.neg
  | l => core l

/-- Go's conversion `int64(f)`: truncation toward zero. -/
def ratTrunc (q : ℚ) : Int := if q < 0 then ⌈q⌉ else ⌊q⌋

/-- Round a rational to the nearest integer, ties to even (the rounding used
by `fmt` `%.1f`, idealised to exact arithmetic). -/
def roundHalfEven (q : ℚ) : Int :=
  let f := ⌊q⌋
  let r := q - (f : ℚ)
  if r < 1 / 2 then f
  else if 1 / 2 < r then f + 1
  else if f % 2 = 0 then f else f + 1

/-- Mirrors `fmt.Sprintf "%.1f"` of an exact rational. -/
def fmtFixed1 (q : ℚ) : String :=
  let n := roundHalfEven (q * 10)
  let sgn := if n < 0 then "-" else ""
  sgn ++ toString (n.natAbs / 10) ++ "." ++ toString (n.natAbs % 10)

/-- Embeds `FormatBytesInt64` from `tmutil.go`: decimal unit thresholds, one decimal
place. -/
def FormatBytesInt64 (n : Int) : String :=
  if 1000000000000 ≤ n then fmtFixed1 ((n : ℚ) / 1000000000000) ++ " TB"
  else if 1000000000 ≤ n then fmtFixed1 ((n : ℚ) / 1000000000) ++ " GB"
  else if 1000000 ≤ n then fmtFixed1 ((n : ℚ) / 1000000) ++ " MB"
  else if 1000 ≤ n then fmtFixed1 ((n : ℚ) / 1000) ++ " KB"
  else toString n ++ " B"

/-- Embeds `FormatDuration` from `tmutil.go`; the duration is in whole seconds.
Go computes the unit values by truncating `d.Hours()`, `d.Minutes()`,
`d.Seconds()`; on the reachable branch (`d ≥ 1s`) exact integer division
agrees with that truncation. -/
def FormatDuration (d : Int) : String :=
  if d < 1 then "0 seconds" else
  let days := d / 86400
  let hours := (d / 3600) % 24
  let minutes := (d / 60) % 60
  let seconds := d % 60
  let parts : List String := []
  let parts := if 0 < days then
    parts ++ [if days = 1 then "1 day" else toString days ++ " days"] else parts
  let parts := if 0 < hours then
    parts ++ [if hours = 1 then "1 hour" else toString hours ++ " hours"] else parts
  let parts := if 0 < minutes then
    parts ++ [if minutes = 1 then "1 minute" else toString minutes ++ " minutes"] else parts
  let parts := if 0 < seconds then
    parts ++ [if seconds = 1 then "1 second" else toString seconds ++ " seconds"] else parts
  String.intercalate ", " parts

/-! ## The raw field map (Go `map[string]string`) -/

/-- Go `map[string]string`: lookup is total with `Option`; a missing key reads
as the zero value `""` at use sites via `Option.getD`. -/
def FieldMap : Type := String → Option String

/-- Map assignment `m[k] = v` (last write wins). -/
def updateF (m : FieldMap) (k v : String) : FieldMap :=
  fun x => if x = k then some v else m x

/-- The empty map. -/
def emptyF : FieldMap := fun _ => none

/-! ## `parseFields` (tmutil.go) -/

/-- The separator `" = "` used by `strings.SplitN`. -/
def sepEq : List Char := [' ', '=', ' ']

/-- The prefix `"Progress ="` that opens the nested progress block. -/
def progressPrefixL : List Char := "Progress =".data

/-- One iteration of the `parseFields` line loop.  The state is the map
built so far together with the `inProgress` flag. -/
def fieldsStep (acc : FieldMap × Bool) (line : List Char) : FieldMap × Bool :=
  let trimmed := trimChars line
  if isPrefixL progressPrefixL trimmed then (acc.1, true)
  else if acc.2 then
    if trimmed = ['}', ';'] then (acc.1, false) else acc
  else if trimmed = ['{'] ∨ trimmed = ['}'] ∨ trimmed = [] then acc
  else
    let t2 := trimSuffixL [';'] trimmed
    match splitFirstAux sepEq t2 with
    | some (a, b) =>
      let key := trimChars a
      let value := trimQuotes (trimChars b)
      (updateF acc.1 ⟨key⟩ ⟨value⟩, acc.2)
    | none => acc

/-- Embeds `parseFields` over an explicit line list. -/
def parseFieldsL (ls : List (List Char)) : FieldMap × Bool :=
  ls.foldl fieldsStep (emptyF, false)

/-- Embeds `parseFields` from `tmutil.go`. -/
def parseFields (raw : String) : FieldMap := (parseFieldsL (linesOf raw)).1

/-! ## `parseProgress` (tmutil.go) -/

/-- One iteration of the `parseProgress` line loop.  The phase is `0` before
the progress block, `1` inside it, `2` after the break on the closing-brace line. -/
def progressStep (acc : FieldMap × Nat) (line : List Char) : FieldMap × Nat :=
  if acc.2 = 2 then acc
  else
    let trimmed := trimChars line
    if isPrefixL progressPrefixL trimmed then (acc.1, 1)
    else if acc.2 = 0 then acc
    else if trimmed = ['}', ';'] then (acc.1, 2)
    else if trimmed = ['{'] then acc
    else
      let t2 := trimSuffixL [';'] trimmed
      match splitFirstAux sepEq t2 with
      | some (a, b) =>
        let key := trimChars a
        let value := trimQuotes (trimChars b)
        (updateF acc.1 ⟨key⟩ ⟨value⟩, acc.2)
      | none => acc

/-- Embeds `parseProgress` over an explicit line list. -/
def parseProgressL (ls : List (List Char)) : FieldMap × Nat :=
  ls.foldl progressStep (emptyF, 0)

/-- Embeds `parseProgress` from `tmutil.go`. -/
def parseProgress (raw : String) : FieldMap := (parseProgressL (linesOf raw)).1

/-! ## `StatusInfo` and `parseStatusInfo` (tmutil.go) -/

/-- Embeds `StatusInfo` from `tmutil.go`.  Go's zero values are the defaults:
`false`, `""`, the zero time, `0`. -/
structure StatusInfo where
  Running : Bool := false
  Phase : String := ""
  Destination : String := ""
  StartedAt : Int := goZeroTime
  Percent : ℚ := 0
  TimeRemaining : ℚ := 0
  BytesCopied : Int := 0
  TotalBytes : Int := 0
  FilesCopied : Int := 0
  TotalFiles : Int := 0
deriving DecidableEq

/-- Build a `StatusInfo` from the two maps, as `parseStatusInfo` does. -/
def buildStatusInfo (fields progress : FieldMap) : StatusInfo :=
  { Running := (fields "Running").getD "" == "1"
    Phase := (fields "BackupPhase").getD ""
    Destination := (fields "DestinationMountPoint").getD ""
    StartedAt := match fields "DateOfStateChange" with
      | some v => (parseDateTime v).getD goZeroTime
      | none => goZeroTime
    Percent := match progress "Percent" with
      | some v => (parseGoFloat v).getD 0
      | none => 0
    TimeRemaining := match progress "TimeRemaining" with
      | some v => (parseGoFloat v).getD 0
      | none => 0
    BytesCopied := match progress "bytes" with
      | some v => ratTrunc ((parseGoFloat v).getD 0)
      | none => 0
    TotalBytes := match progress "totalBytes" with
      | some v => ratTrunc ((parseGoFloat v).getD 0)
      | none => 0
    FilesCopied := match progress "files" with
      | some v => ratTrunc ((parseGoFloat v).getD 0)
      | none => 0
    TotalFiles := match progress "totalFiles" with
      | some v => ratTrunc ((parseGoFloat v).getD 0)
      | none => 0 }

/-- Embeds `parseStatusInfo` over an explicit line list. -/
def parseStatusInfoL (ls : List (List Char)) : StatusInfo :=
  buildStatusInfo (parseFieldsL ls).1 (parseProgressL ls).1

/-- Embeds `parseStatusInfo` from `tmutil.go`. -/
def parseStatusInfo (raw : String) : StatusInfo := parseStatusInfoL (linesOf raw)

/-! ## `BackupPrefs` and its derived accessors (preferences.go) -/

/-- Embeds `BackupPrefs` from `preferences.go`, with Go zero values as defaults. -/
structure BackupPrefs where
  AutoBackup : Bool := false
  AutoBackupSet : Bool := false
  Encryption : String := ""
  BytesUsed : Int := 0
  BytesAvailable : Int := 0
  SnapshotDates : List Int := []
  AttemptDates : List Int := []
deriving DecidableEq

/-- Embeds `BackupPrefs.LastSnapshot`: the final element of `SnapshotDates`, or the
zero time when the list is empty. -/
def BackupPrefs.LastSnapshot (p : BackupPrefs) : Int :=
  (p.SnapshotDates.getLast?).getD goZeroTime

/-- Embeds `BackupPrefs.FirstSnapshot`: the first element of `SnapshotDates`, or the
zero time when the list is empty. -/
def BackupPrefs.FirstSnapshot (p : BackupPrefs) : Int :=
  (p.SnapshotDates.head?).getD goZeroTime

/-- Embeds `BackupPrefs.LastBackupDuration`: the last snapshot minus the latest
attempt that is not after it, computed with a fold whose accumulator starts
at the zero time (Go's `var best time.Time`). -/
def BackupPrefs.LastBackupDuration (p : BackupPrefs) : Int :=
  let last := p.LastSnapshot
  if last = goZeroTime ∨ p.AttemptDates = [] then 0
  else
    let best := p.AttemptDates.foldl
      (fun best a => if ¬ last < a ∧ best < a then a else best) goZeroTime
    if best = goZeroTime then 0 else last - best

/-! ## `parseBackupPrefs` (preferences.go) -/

/-- One iteration of the top-level key loop of `parseBackupPrefs` (only the
`AutoBackup` key is of interest). -/
def topStep (p : BackupPrefs) (line : List Char) : BackupPrefs :=
  let trimmed := trimSuffixL [';'] (trimChars line)
  match splitFirstAux sepEq trimmed with
  | some (a, b) =>
    let key := trimChars a
    let val := trimQuotes (trimChars b)
    if key = "AutoBackup".data then
      { p with AutoBackupSet := true, AutoBackup := val == ['1'] }
    else p
  | none => p

/-- Control state of `parseDestinationBlock`.  `stopped` models Go's `break`
out of the line loop. -/
structure DestCtl where
  inDest : Bool := false
  inSnapshots : Bool := false
  inAttempts : Bool := false
  inArray : List Char := []
  depth : Int := 0
  stopped : Bool := false
deriving DecidableEq

/-- The prefix `"Destinations ="` locating the destinations array. -/
def destPrefixL : List Char := "Destinations =".data

/-- The member collector of `parseDestinationBlock`: strip an optional
trailing comma, re-trim, demand surrounding double quotes, strip them and
parse the plist timestamp. -/
def collectDate (line : List Char) : Option Int :=
  let trimmed := trimChars line
  let clean := trimChars (trimSuffixL [','] trimmed)
  if headIs '"' clean && lastIs '"' clean then
    parseDateTime ⟨trimQuotes clean⟩
  else none

/-- One iteration of the `parseDestinationBlock` line loop. -/
def destStep (acc : BackupPrefs × DestCtl) (line : List Char) : BackupPrefs × DestCtl :=
  let p := acc.1
  let c := acc.2
  if c.stopped then acc
  else
    let trimmed := trimChars line
    if !c.inDest then
      if isPrefixL destPrefixL trimmed then (p, { c with inDest := true }) else acc
    else if containsSubL sepEq trimmed then
      let clean := trimSuffixL [';'] trimmed
      match splitFirstAux sepEq clean with
      | some (a, b) =>
        let key := trimChars a
        let val := trimQuotes (trimChars b)
        if val = ['('] then
          let c := { c with inArray := key }
          let c := if key = "SnapshotDates".data then { c with inSnapshots := true }
                   else if key = "AttemptDates".data then { c with inAttempts := true }
                   else c
          (p, c)
        else if key = "BytesUsed".data then
          match parseGoInt ⟨val⟩ with
          | some n => ({ p with BytesUsed := n }, c)
          | none => acc
        else if key = "BytesAvailable".data then
          match parseGoInt ⟨val⟩ with
          | some n => ({ p with BytesAvailable := n }, c)
          | none => acc
        else if key = "LastKnownEncryptionState".data then
          ({ p with Encryption := ⟨val⟩ }, c)
        else acc
      | none => acc
    else if trimmed = ['('] ∨ trimmed = ['{'] then
      (p, { c with depth := c.depth + 1 })
    else if trimmed = [')', ';'] ∨ trimmed = [')'] then
      if c.inArray ≠ [] then
        let c := if c.inArray = "SnapshotDates".data then { c with inSnapshots := false }
                 else if c.inArray = "AttemptDates".data then { c with inAttempts := false }
                 else c
        (p, { c with inArray := [] })
      else
        let d := c.depth - 1
        (p, { c with depth := d, stopped := d ≤ 0 })
    else if trimmed = ['}', ';'] ∨ trimmed = ['}'] then
      let d := c.depth - 1
      (p, { c with depth := d, stopped := d ≤ 0 })
    else if c.inSnapshots ∨ c.inAttempts then
      match collectDate line with
      | some t =>
        if c.inSnapshots then ({ p with SnapshotDates := p.SnapshotDates ++ [t] }, c)
        else ({ p with AttemptDates := p.AttemptDates ++ [t] }, c)
      | none => acc
    else acc

/-- Embeds `parseBackupPrefs` over an explicit line list: the top-level key scan
followed by `parseDestinationBlock`. -/
def parsePrefsL (ls : List (List Char)) : BackupPrefs :=
  (ls.foldl destStep (ls.foldl topStep {}, {}) ).1

/-- Embeds `parseBackupPrefs` from `preferences.go`. -/
def parseBackupPrefs (raw : String) : BackupPrefs := parsePrefsL (linesOf raw)

/-! ## The polling monitor (ui/monitor.go) -/

/-- The Bubbletea messages reaching `MonitorModel.Update`.  A status sample
carries the parsed snapshot and the error of the run, `none` for success
(errors are opaque; only their message text matters to the model). -/
inductive TeaMsg where
  | windowSize (w h : Int)
  | key (s : String)
  | statusUpdate (info : StatusInfo) (err : Option String)
  | statusTick
deriving DecidableEq

/-- The commands `MonitorModel.Update` can return: `nil`, `tea.Quit`,
`tickCmd()` (schedule the next 1-second tick) and `pollStatus` (sample the
live status now). -/
inductive TeaCmd where
  | nilCmd
  | quit
  | tick
  | poll
deriving DecidableEq

/-- Embeds `MonitorModel` from `ui/monitor.go`. -/
structure MonitorModel where
  version : String
  info : StatusInfo := {}
  err : Option String := none
  width : Int := 0
  height : Int := 0
  done : Bool := false
  altScreen : Bool
deriving DecidableEq

/-- Embeds `NewMonitorModel` from `ui/monitor.go`. -/
def NewMonitorModel (version : String) (altScreen : Bool) : MonitorModel :=
  { version := version, altScreen := altScreen }

/-- Embeds `MonitorModel.Update` from `ui/monitor.go`. -/
def MonitorModel.Update (m : MonitorModel) (msg : TeaMsg) : MonitorModel × TeaCmd :=
  match msg with
  | .windowSize w h => ({ m with width := w, height := h }, .nilCmd)
  | .key s =>
    if s = "q" ∨ s = "ctrl+c" ∨ s = "esc" then (m, .quit) else (m, .nilCmd)
  | .statusUpdate info err =>
    let m := { m with err := err }
    let m := match err with
      | none =>
        let m := { m with info := info }
        if !info.Running then { m with done := true } else m
      | some _ => m
    (m, .tick)
  | .statusTick => (m, .poll)

/-- Embeds `renderProgressBar` from `ui/monitor.go`.  The two lipgloss style
renderers are external collaborators passed in as functions. -/
def renderProgressBar (styleFull styleEmpty : String → String) (percent : ℚ) : String :=
  let percent := if percent < 0 then 0 else percent
  let percent := if 1 < percent then 1 else percent
  let filled := ratTrunc (40 * percent)
  let empty := 40 - filled
  "[" ++ styleFull ⟨List.replicate filled.toNat '█'⟩ ++
    styleEmpty ⟨List.replicate empty.toNat '░'⟩ ++ "]"

/-- The `Phase:` line of the monitor body. -/
def monitorPhaseSeg (info : StatusInfo) : String :=
  if info.Phase ≠ "" then "Phase:       " ++ info.Phase ++ "\n" else ""

/-- The `Destination:` line of the monitor body. -/
def monitorDestSeg (info : StatusInfo) : String :=
  if info.Destination ≠ "" then "Destination: " ++ info.Destination ++ "\n" else ""

/-- The `Bytes:` line of the monitor body, rendered only when `TotalBytes`
is positive. -/
def monitorBytesSeg (info : StatusInfo) : String :=
  if 0 < info.TotalBytes then
    "Bytes:       " ++ FormatBytesInt64 info.BytesCopied ++ " / " ++
      FormatBytesInt64 info.TotalBytes ++ "\n"
  else ""

/-- The `Files:` line of the monitor body. -/
def monitorFilesSeg (info : StatusInfo) : String :=
  if 0 < info.TotalFiles then
    "Files:       " ++ toString info.FilesCopied ++ " / " ++
      toString info.TotalFiles ++ "\n"
  else ""

/-- The `Remaining:` line of the monitor body.  `now` is the sample instant
and `fmtClock` the local-time clock formatter (external collaborators). -/
def monitorRemainSeg (now : Int) (fmtClock : Int → String) (info : StatusInfo) : String :=
  if 0 < info.TimeRemaining then
    let mins := ratTrunc info.TimeRemaining / 60
    let hrs := mins / 60
    let mins := mins % 60
    let estimate := now + ratTrunc info.TimeRemaining
    if 0 < hrs then
      "Remaining:   " ++ toString hrs ++ "h " ++ toString mins ++ "m [" ++
        fmtClock estimate ++ "]\n"
    else
      "Remaining:   " ++ toString mins ++ "m [" ++ fmtClock estimate ++ "]\n"
  else "Remaining:   Calculating...\n"

/-- The `Started/Current/Elapsed` block of the monitor body. -/
def monitorStartedSeg (now : Int) (fmtClock : Int → String) (info : StatusInfo) : String :=
  if info.StartedAt ≠ goZeroTime then
    "\nStarted:     " ++ fmtClock info.StartedAt ++ "\n" ++
    "Current:     " ++ fmtClock now ++ "\n" ++
    "Elapsed:     " ++ FormatDuration (now - info.StartedAt) ++ "\n"
  else ""

/-- Embeds `MonitorModel.renderBody` from `ui/monitor.go`. -/
def MonitorModel.renderBody (m : MonitorModel) (now : Int) (fmtClock : Int → String)
    (styleFull styleEmpty : String → String) : String :=
  match m.err with
  | some e => "Error: " ++ e
  | none =>
    if m.done then
      "Backup complete.\n\n" ++ renderProgressBar styleFull styleEmpty 1 ++ "  100.0%"
    else if !m.info.Running then
      "No backup in progress. Waiting...\n\n" ++
        renderProgressBar styleFull styleEmpty 0 ++ "    0.0%"
    else
      monitorPhaseSeg m.info ++ monitorDestSeg m.info ++ "\n" ++
      renderProgressBar styleFull styleEmpty m.info.Percent ++ "  " ++
        fmtFixed1 (m.info.Percent * 100) ++ "%\n\n" ++
      monitorBytesSeg m.info ++ monitorFilesSeg m.info ++
      monitorRemainSeg now fmtClock m.info ++
      monitorStartedSeg now fmtClock m.info ++
      (if !m.altScreen then "\nq: quit • updates every 1s" else "")

/-! ## The idle-status report (`formatIdleStatus` in backup.go) -/

/-- Embeds `DestInfo` from `destination.go`. -/
structure DestInfo where
  Name : String := ""
  Kind : String := ""
  MountPoint : String := ""
  ID : String := ""
deriving DecidableEq

/-- The results of the four external reads `formatIdleStatus` performs
(`GetBackupPrefs`, `GetDestinationInfo`, `LatestBackup`, `listBackupPaths`).
`none` models the call returning an error. -/
structure IdleEnv where
  prefs : Option BackupPrefs := none
  dest : Option DestInfo := none
  latest : Option String := none
  paths : Option (List String) := none

/-- The fixed header of the idle report. -/
def idleHeader : String :=
  "Time Machine Status\n" ++ (⟨List.replicate 40 '─'⟩ : String) ++ "\n\n" ++
  "  State:         Idle\n"

/-- The `Auto Backup:` line: preferences first, the raw status fields only
as the fallback. -/
def idleAutoSeg (fields : FieldMap) (prefs : Option BackupPrefs) : String :=
  let fallback :=
    match fields "AutoBackup" with
    | some v =>
      if v = "1" then "  Auto Backup:   Enabled\n" else "  Auto Backup:   Disabled\n"
    | none => ""
  match prefs with
  | some p =>
    if p.AutoBackupSet then
      if p.AutoBackup then "  Auto Backup:   Enabled\n" else "  Auto Backup:   Disabled\n"
    else fallback
  | none => fallback

/-- The `Destination:` line, from the live destination info. -/
def idleDestSeg (dest : Option DestInfo) : String :=
  match dest with
  | some d =>
    if d.Name ≠ "" then
      let label :=
        if d.MountPoint ≠ "" ∧ d.MountPoint ≠ d.Name then
          d.Name ++ " (" ++ d.MountPoint ++
            (if d.Kind ≠ "" then ", " ++ d.Kind else "") ++ ")"
        else if d.Kind ≠ "" then d.Name ++ " (" ++ d.Kind ++ ")"
        else d.Name
      "  Destination:   " ++ label ++ "\n"
    else ""
  | none => ""

/-- The `Encryption:` line, from the preferences only. -/
def idleEncSeg (prefs : Option BackupPrefs) : String :=
  match prefs with
  | some p => if p.Encryption ≠ "" then "  Encryption:    " ++ p.Encryption ++ "\n" else ""
  | none => ""

/-- The `Last Backup` block: preferences snapshot dates first, the live
`latestbackup` path only as the fallback. -/
def idleLastSeg (prefs : Option BackupPrefs) (latest : Option String)
    (fmtClock : Int → String) : String :=
  let fallback :=
    match latest with
    | some l =>
      if l ≠ "" then
        match parseBackupDate l with
        | some t => "\n  Last Backup\n    Completed:   " ++ fmtClock t ++ "\n"
        | none => ""
      else ""
    | none => ""
  match prefs with
  | some p =>
    if p.LastSnapshot ≠ goZeroTime then
      "\n  Last Backup\n    Completed:   " ++ fmtClock p.LastSnapshot ++ "\n" ++
      (if 0 < p.LastBackupDuration then
        "    Elapsed:     " ++ FormatDuration p.LastBackupDuration ++ "\n"
      else "")
    else fallback
  | none => fallback

/-- The `Backup History` block: preferences snapshot dates first, the live
`listbackups` paths only as the fallback. -/
def idleHistorySeg (prefs : Option BackupPrefs) (paths : Option (List String))
    (fmtClock : Int → String) : String :=
  let fallback :=
    match paths with
    | some ps =>
      match ps with
      | [] => ""
      | first :: rest =>
        "\n  Backup History\n    Total:       " ++ toString ps.length ++ " snapshot(s)\n" ++
        (match parseBackupDate first with
          | some t => "    Oldest:      " ++ fmtClock t ++ "\n"
          | none => "") ++
        (match parseBackupDate ((first :: rest).getLast (by simp)) with
          | some t => "    Newest:      " ++ fmtClock t ++ "\n"
          | none => "")
    | none => ""
  match prefs with
  | some p =>
    if p.SnapshotDates ≠ [] then
      "\n  Backup History\n    Total:       " ++ toString p.SnapshotDates.length ++
        " snapshot(s)\n" ++
      "    Oldest:      " ++ fmtClock p.FirstSnapshot ++ "\n" ++
      "    Newest:      " ++ fmtClock p.LastSnapshot ++ "\n"
    else fallback
  | none => fallback

/-- The `Disk Usage` block, from the preferences only. -/
def idleDiskSeg (prefs : Option BackupPrefs) : String :=
  match prefs with
  | some p =>
    if 0 < p.BytesUsed ∨ 0 < p.BytesAvailable then
      "\n  Disk Usage\n" ++
      (if 0 < p.BytesUsed then
        "    Used:        " ++ FormatBytesInt64 p.BytesUsed ++ "\n" else "") ++
      (if 0 < p.BytesAvailable then
        "    Available:   " ++ FormatBytesInt64 p.BytesAvailable ++ "\n" else "") ++
      (if 0 < p.BytesUsed ∧ 0 < p.BytesAvailable then
        "    Total:       " ++ FormatBytesInt64 (p.BytesUsed + p.BytesAvailable) ++ "\n"
      else "")
    else ""
  | none => ""

/-- Embeds `formatIdleStatus` from `backup.go`, with the four external reads and the
local clock formatter supplied by the environment. -/
def formatIdleStatus (raw : String) (env : IdleEnv) (fmtClock : Int → String) : String :=
  idleHeader ++
  idleAutoSeg (parseFields raw) env.prefs ++
  idleDestSeg env.dest ++
  idleEncSeg env.prefs ++
  idleLastSeg env.prefs env.latest fmtClock ++
  idleHistorySeg env.prefs env.paths fmtClock ++
  idleDiskSeg env.prefs

/-! ## Spec-side definitions

These definitions transcribe the wording of the specification (not the Go
code); the claim theorems compare them with the embedded source. -/

/-- Spec §3: `lastBackupDuration = lastSnapshot − (latest attemptDate ≤
lastSnapshot)`, or zero if there is no snapshot or no qualifying attempt.
Transcribed from the spec's words, independent of the code's fold. -/
def specLastBackupDuration (p : BackupPrefs) : Int :=
  match p.SnapshotDates.getLast? with
  | none => 0
  | some last =>
    match p.AttemptDates.filter (fun a => a ≤ last) with
    | [] => 0
    | q :: qs => last - qs.foldl max q

/-- Spec §6: the rendered word list of a duration — the non-zero units among
days, hours, minutes, seconds in that order, singular exactly for the value
one.  Transcribed from the spec's words. -/
def specDurationWords (d : Int) : List String :=
  (([(d / 86400, "day"), ((d / 3600) % 24, "hour"),
     ((d / 60) % 60, "minute"), (d % 60, "second")].filter
        (fun u => 0 < u.1)).map
    (fun u => if u.1 = 1 then "1 " ++ u.2 else toString u.1 ++ " " ++ u.2 ++ "s"))

/-! ## Claim infrastructure -/

/-- A line is benign when it contains none of the characters that any branch
of any of the parsers keys on: `=` (assignments, the `Progress =` and
`Destinations =` markers), `"` (quoted array members) and the four brackets
(structural tokens).  Such a line is unrecognized by every parser state. -/
def benignChar (c : Char) : Bool :=
  !(c == '=' || c == '"' || c == '(' || c == ')' || c == '{' || c == '}')

/-- The core of a well-formed scalar assignment line, `key = "value";`. -/
def scalarCore (k v : String) : List Char :=
  k.data ++ " = \"".data ++ v.data ++ "\";".data

/-- A well-formed scalar assignment line `key = "value";`, surrounded by
`ind` leading and `tail` trailing blanks (claim C8). -/
def mkScalarLine (ind tail : Nat) (k v : String) : List Char :=
  List.replicate ind ' ' ++ scalarCore k v ++ List.replicate tail ' '

/-- A plist key made of ordinary characters: non-empty, no whitespace, and
none of the characters the parser branches on. -/
def goodKeyChar (c : Char) : Bool := !c.isWhitespace && benignChar c

/-- A well-formed array name: non-empty and made of ordinary key characters. -/
def goodName (n : List Char) : Bool := !n.isEmpty && n.all goodKeyChar

/-- A well-formed array member line: free of the assignment and structure
characters, so that it can only be read as an array member (quotes, commas,
spaces and date digits are all allowed). -/
def goodMember (m : List Char) : Bool :=
  m.all fun c => !(c == '=' || c == '(' || c == ')' || c == '{' || c == '}')

/-- A named-array block of a destinations document: the opener
`name = (`, the member lines, and the closer `);` (claim C7). -/
def arrayBlockLines (name : List Char) (members : List (List Char)) :
    List (List Char) :=
  (name ++ (" = (".data)) :: members ++ [[')', ';']]

/-- A destinations document holding the given named-array blocks inside the
first (and only) destination dictionary. -/
def destDoc (blocks : List (List Char × List (List Char))) : List (List Char) :=
  "Destinations = (".data :: ['{'] ::
    (blocks.map (fun b => arrayBlockLines b.1 b.2)).flatten ++ [['}', ';'], [')', ';']]

/-- The dates a named array contributes according to the spec: the members of
every block carrying exactly that name, in source order, each parsed as a
quoted plist timestamp (other blocks' members are discarded). -/
def blockDates (name : List Char) (blocks : List (List Char × List (List Char))) :
    List Int :=
  ((blocks.filter (fun b => b.1 = name)).map (fun b => b.2.filterMap collectDate)).flatten

/-! ## Helper lemmas about the string primitives -/

theorem isPrefixL_append_self (p r : List Char) : isPrefixL p (p ++ r) = true := by
  induction p with
  | nil => rfl
  | cons a as ih => simp [isPrefixL, ih]

theorem exists_of_isPrefixL :
    ∀ {p l : List Char}, isPrefixL p l = true → ∃ r, l = p ++ r := by
  intro p
  induction p with
  | nil => intro l _; exact ⟨l, rfl⟩
  | cons a as ih =>
    intro l h
    cases l with
    | nil => simp [isPrefixL] at h
    | cons b bs =>
      simp only [isPrefixL, Bool.and_eq_true, beq_iff_eq] at h
      obtain ⟨r, hr⟩ := ih h.2
      exact ⟨r, by simp [h.1, hr]⟩

theorem mem_of_isPrefixL {p l : List Char} (h : isPrefixL p l = true) :
    ∀ c ∈ p, c ∈ l := by
  obtain ⟨r, rfl⟩ := exists_of_isPrefixL h
  intro c hc
  exact List.mem_append_left _ hc

theorem splitFirstAux_eq :
    ∀ {l a b : List Char} {sep : List Char},
      splitFirstAux sep l = some (a, b) → l = a ++ sep ++ b := by
  intro l
  induction l with
  | nil => intro a b sep h; simp [splitFirstAux] at h
  | cons c t ih =>
    intro a b sep h
    by_cases hp : isPrefixL sep (c :: t) = true
    · obtain ⟨r, hr⟩ := exists_of_isPrefixL hp
      rw [splitFirstAux, if_pos hp] at h
      rw [hr, List.drop_left] at h
      cases h
      simpa using hr
    · rw [splitFirstAux, if_neg hp] at h
      rcases hrec : splitFirstAux sep t with _ | ⟨a', b'⟩
      · rw [hrec] at h; cases h
      · rw [hrec] at h
        cases h
        simpa using ih hrec

theorem splitFirstAux_eq_none_of_not_mem {sep l : List Char} {c : Char}
    (hc : c ∈ sep) (hl : c ∉ l) : splitFirstAux sep l = none := by
  rcases h : splitFirstAux sep l with _ | ⟨a, b⟩
  · rfl
  · exact absurd (by rw [splitFirstAux_eq h]; simp [hc]) hl

theorem containsSubL_false_of_not_mem {sep l : List Char} {c : Char}
    (hc : c ∈ sep) (hl : c ∉ l) : containsSubL sep l = false := by
  simp [containsSubL, splitFirstAux_eq_none_of_not_mem hc hl]

theorem splitFirstAux_cons_pos {sep l : List Char} {c : Char}
    (h : isPrefixL sep (c :: l) = true) :
    splitFirstAux sep (c :: l) = some ([], (c :: l).drop sep.length) := by
  rw [splitFirstAux, if_pos h]

theorem splitFirstAux_cons_neg {sep l : List Char} {c : Char}
    (h : isPrefixL sep (c :: l) = false) :
    splitFirstAux sep (c :: l) =
      match splitFirstAux sep l with
      | some (a, b) => some (c :: a, b)
      | none => none := by
  rw [splitFirstAux, if_neg (by simp [h])]

theorem splitFirstAux_isSome_append (sep a b : List Char) (hsep : sep ≠ []) :
    (splitFirstAux sep (a ++ sep ++ b)).isSome = true := by
  induction a with
  | nil =>
    have h := isPrefixL_append_self sep b
    rcases sep with _ | ⟨s, ss⟩
    · exact absurd rfl hsep
    · rw [List.nil_append, List.cons_append, splitFirstAux_cons_pos]
      · rfl
      · simpa using h
  | cons c t ih =>
    rw [List.cons_append, List.cons_append]
    by_cases hp : isPrefixL sep (c :: (t ++ sep ++ b)) = true
    · rw [splitFirstAux_cons_pos hp]; rfl
    · rw [splitFirstAux_cons_neg (by simpa using hp)]
      rcases h : splitFirstAux sep (t ++ sep ++ b) with _ | ⟨x, y⟩
      · rw [h] at ih; simp at ih
      · simp

theorem containsSubL_append_mid (sep a b : List Char) (hsep : sep ≠ []) :
    containsSubL sep (a ++ sep ++ b) = true := by
  simpa [containsSubL] using splitFirstAux_isSome_append sep a b hsep

theorem splitFirstAux_boundary {k : List Char} (r : List Char)
    (hk : ∀ c ∈ k, c ≠ ' ') :
    splitFirstAux sepEq (k ++ sepEq ++ r) = some (k, r) := by
  induction k with
  | nil =>
    have h : isPrefixL sepEq (sepEq ++ r) = true := isPrefixL_append_self sepEq r
    rw [List.nil_append]
    rw [show sepEq ++ r = ' ' :: ('=' :: ' ' :: r) from by simp [sepEq]] at h ⊢
    rw [splitFirstAux_cons_pos h]
    simp [sepEq]
  | cons c t ih =>
    have hc : c ≠ ' ' := hk c (by simp)
    have hih := ih (fun x hx => hk x (by simp [hx]))
    have hnp : isPrefixL sepEq (c :: (t ++ sepEq ++ r)) = false := by
      simp only [sepEq, isPrefixL]
      simp [Ne.symm hc]
    rw [List.cons_append, List.cons_append, splitFirstAux_cons_neg hnp,
      hih]

theorem dropAround_nil (p : Char → Bool) : dropAround p [] = [] := rfl

theorem dropAround_eq_self {p : Char → Bool} {c d : Char} (t : List Char)
    (hc : p c = false) (hd : p d = false) :
    dropAround p ((c :: t) ++ [d]) = (c :: t) ++ [d] := by
  unfold dropAround
  rw [List.cons_append, List.dropWhile_cons_of_neg (by simp [hc]),
    ← List.cons_append, List.reverse_append]
  simp only [List.reverse_cons, List.reverse_nil, List.nil_append,
    List.singleton_append]
  rw [List.dropWhile_cons_of_neg (by simp [hd])]
  simp

theorem dropAround_single {p : Char → Bool} {c : Char} (hc : p c = false) :
    dropAround p [c] = [c] := by
  unfold dropAround
  rw [List.dropWhile_cons_of_neg (by simp [hc])]
  simp [List.dropWhile_cons_of_neg (by simp [hc] : ¬ p c = true)]

theorem dropAround_cons_eq_self {p : Char → Bool} {c : Char} {t : List Char}
    (hc : p c = false) (hd : ∀ x, (c :: t).getLast? = some x → p x = false) :
    dropAround p (c :: t) = c :: t := by
  rcases t.eq_nil_or_concat with rfl | ⟨t', d, rfl⟩
  · exact dropAround_single hc
  · simp only [List.concat_eq_append] at hd ⊢
    have hd' : p d = false := by
      apply hd
      rw [show c :: (t' ++ [d]) = (c :: t') ++ [d] from rfl]
      exact List.getLast?_concat _
    rw [show c :: (t' ++ [d]) = (c :: t') ++ [d] from rfl]
    exact dropAround_eq_self t' hc hd'

theorem mem_dropAround {p : Char → Bool} {l : List Char} {c : Char}
    (h : c ∈ dropAround p l) : c ∈ l := by
  unfold dropAround at h
  rw [List.mem_reverse] at h
  have h1 := (List.dropWhile_sublist (l := (l.dropWhile p).reverse) (p := p)).mem h
  rw [List.mem_reverse] at h1
  exact (List.dropWhile_sublist (l := l) (p := p)).mem h1

theorem mem_trimChars {l : List Char} {c : Char} (h : c ∈ trimChars l) : c ∈ l :=
  mem_dropAround h

theorem mem_trimSuffixL {s l : List Char} {c : Char} (h : c ∈ trimSuffixL s l) :
    c ∈ l := by
  unfold trimSuffixL at h
  split at h
  · exact (List.take_sublist _ _).mem h
  · exact h

theorem trimSuffixL_concat_self (x : Char) (l : List Char) :
    trimSuffixL [x] (l ++ [x]) = l := by
  have hs : isSuffixL [x] (l ++ [x]) = true := by
    simp only [isSuffixL, List.reverse_append, List.reverse_cons, List.reverse_nil,
      List.nil_append, List.singleton_append, isPrefixL]
    simp
  simp only [trimSuffixL, hs, if_pos, List.length_append, List.length_cons,
    List.length_nil]
  rw [show l.length + (0 + 1) - 1 = l.length by omega]
  exact List.take_left l [x]

theorem trimSuffixL_concat_ne {x d : Char} (l : List Char) (h : d ≠ x) :
    trimSuffixL [x] (l ++ [d]) = l ++ [d] := by
  have hs : isSuffixL [x] (l ++ [d]) = false := by
    simp only [isSuffixL, List.reverse_append, List.reverse_cons, List.reverse_nil,
      List.nil_append, List.singleton_append, isPrefixL]
    simp [Ne.symm h]
  simp [trimSuffixL, hs]

theorem headIs_mem {c : Char} {l : List Char} (h : headIs c l = true) : c ∈ l := by
  cases l with
  | nil => simp [headIs] at h
  | cons x t => simp only [headIs, beq_iff_eq] at h; simp [h]

/-! ## Fold and order lemmas -/

theorem foldl_max_init_le (l : List Int) (z : Int) : z ≤ l.foldl max z := by
  induction l generalizing z with
  | nil => exact le_refl z
  | cons a t ih => exact le_trans (le_max_left z a) (ih (max z a))

theorem foldl_max_mem (l : List Int) (z : Int) :
    l.foldl max z = z ∨ l.foldl max z ∈ l := by
  induction l generalizing z with
  | nil => exact Or.inl rfl
  | cons a t ih =>
    rcases ih (max z a) with h | h
    · rcases max_choice z a with hm | hm
      · exact Or.inl (by rw [List.foldl_cons, h, hm])
      · exact Or.inr (by rw [List.foldl_cons, h, hm]; exact List.mem_cons_self a t)
    · exact Or.inr (List.mem_cons_of_mem a h)

theorem le_foldl_max {a : Int} (l : List Int) (z : Int) (h : a ∈ l) :
    a ≤ l.foldl max z := by
  induction l generalizing z with
  | nil => simp at h
  | cons b t ih =>
    rcases List.mem_cons.mp h with rfl | h
    · exact le_trans (le_max_right z a) (foldl_max_init_le t _)
    · exact ih _ h

theorem foldl_max_mono_init {z w : Int} (l : List Int) (h : z ≤ w) :
    l.foldl max z ≤ l.foldl max w := by
  induction l generalizing z w with
  | nil => exact h
  | cons a t ih => exact ih (max_le_max h (le_refl a))

theorem bestFold_eq (last z : Int) (l : List Int) :
    l.foldl (fun best a => if ¬ last < a ∧ best < a then a else best) z
      = (l.filter (fun a => a ≤ last)).foldl max z := by
  induction l generalizing z with
  | nil => rfl
  | cons a t ih =>
    by_cases ha : a ≤ last
    case pos =>
      have h1 : (if ¬ last < a ∧ z < a then a else z) = max z a := by
        by_cases hz : z < a
        · rw [if_pos ⟨not_lt.mpr ha, hz⟩]; exact (max_eq_right hz.le).symm
        · rw [if_neg (fun hcon => hz hcon.2)]
          exact (max_eq_left (not_lt.mp hz)).symm
      rw [List.foldl_cons, h1, List.filter_cons, if_pos (by simpa using ha),
        List.foldl_cons]
      exact ih (max z a)
    case neg =>
      have h1 : (if ¬ last < a ∧ z < a then a else z) = z := by
        rw [if_neg (fun hcon => hcon.1 (not_le.mp ha))]
      rw [List.foldl_cons, h1, List.filter_cons, if_neg (by simpa using ha)]
      exact ih z

theorem sorted_le_getLast? :
    ∀ {l : List Int}, l.Sorted (· ≤ ·) → ∀ {x y : Int}, x ∈ l →
      l.getLast? = some y → x ≤ y := by
  intro l
  induction l with
  | nil => intro _ x y hx _; simp at hx
  | cons a t ih =>
    intro hs x y hx hy
    cases t with
    | nil =>
      simp only [List.getLast?_singleton, Option.some_inj] at hy
      rcases List.mem_singleton.mp hx with rfl
      exact le_of_eq hy
    | cons b u =>
      rw [List.getLast?_cons_cons] at hy
      rcases List.mem_cons.mp hx with rfl | hx
      · have hy' : y ∈ b :: u := by
          have := List.mem_of_mem_getLast? (l := b :: u) (a := y)
          exact this hy
        exact List.rel_of_sorted_cons hs y hy'
      · exact ih (List.Sorted.of_cons hs) hx hy
/-- Auxiliary copy of the argument for `head?`. -/
theorem sorted_head?_le :
    ∀ {l : List Int}, l.Sorted (· ≤ ·) → ∀ {x y : Int}, x ∈ l →
      l.head? = some y → y ≤ x := by
  intro l
  induction l with
  | nil => intro _ x y hx _; simp at hx
  | cons a t _ =>
    intro hs x y hx hy
    simp only [List.head?_cons, Option.some_inj] at hy
    subst hy
    rcases List.mem_cons.mp hx with rfl | hx
    · exact le_refl x
    · exact List.rel_of_sorted_cons hs x hx

/-! ## Claim C10 — a failed sample only records the error -/

/-- C10: when a status sample fails (the message carries an error),
`MonitorModel.Update` records the error and leaves every other field
unchanged — the previously held snapshot and the `done` flag keep their
values — and returns the tick command, so sampling continues. -/
theorem monitor_failed_sample_frame (m : MonitorModel) (info : StatusInfo)
    (e : String) :
    m.Update (TeaMsg.statusUpdate info (some e)) = ({ m with err := some e }, TeaCmd.tick) :=
  rfl

/-! ## Claim C1 — the monitor after a terminal sample -/

/-- A running sample at ten percent, as in the spec's monitor scenario. -/
def infoRunningSample : StatusInfo := { Running := true, Percent := 1 / 10 }

/-- A sample reporting that the backup is no longer running. -/
def infoStoppedSample : StatusInfo := {}

/-- C1 counterexample: run the spec's own scenario — a successful
`running=true, percent=0.10` sample, then a successful `running=false`
sample.  The `done` flag is set, but the very step that sets it returns the
tick command, and the following tick message makes `Update` return the poll
command: the monitor issues further samples after `done`, contradicting the
claim that no later step returns a tick or poll command. -/
theorem monitor_cex_polls_after_done :
    (((NewMonitorModel "dev" false).Update
        (TeaMsg.statusUpdate infoRunningSample none)).1.Update
        (TeaMsg.statusUpdate infoStoppedSample none)).1.done = true ∧
    (((NewMonitorModel "dev" false).Update
        (TeaMsg.statusUpdate infoRunningSample none)).1.Update
        (TeaMsg.statusUpdate infoStoppedSample none)).2 = TeaCmd.tick ∧
    ((((NewMonitorModel "dev" false).Update
        (TeaMsg.statusUpdate infoRunningSample none)).1.Update
        (TeaMsg.statusUpdate infoStoppedSample none)).1.Update
        TeaMsg.statusTick).2 = TeaCmd.poll :=
  ⟨rfl, rfl, rfl⟩

/-- C1 (amended): the `done` flag is sticky — once true, no message ever
resets it — but `Update` does not stop scheduling work: a tick message
always yields the poll command and a successful or failed sample always
yields the tick command, whether or not `done` is set. -/
theorem monitor_done_sticky (m : MonitorModel) (msg : TeaMsg)
    (h : m.done = true) :
    (m.Update msg).1.done = true ∧
    (m.Update TeaMsg.statusTick).2 = TeaCmd.poll ∧
    (∀ (i : StatusInfo) (e : Option String),
      (m.Update (TeaMsg.statusUpdate i e)).2 = TeaCmd.tick) := by
  refine ⟨?_, rfl, fun i e => by cases e <;> rfl⟩
  cases msg with
  | windowSize w hgt => exact h
  | key s => by_cases hs : s = "q" ∨ s = "ctrl+c" ∨ s = "esc" <;>
      simp [MonitorModel.Update, hs, h]
  | statusTick => exact h
  | statusUpdate i e =>
    cases e with
    | none =>
      by_cases hr : i.Running <;>
        simp [MonitorModel.Update, hr, h]
    | some e' => exact h

/-- C1 amended witness at a concrete model with `done` already set. -/
theorem monitor_done_sticky_witness :
    ({ NewMonitorModel "dev" false with done := true } : MonitorModel).done = true ∧
    (({ NewMonitorModel "dev" false with done := true } : MonitorModel).Update
      TeaMsg.statusTick).1.done = true :=
  ⟨rfl, (monitor_done_sticky _ TeaMsg.statusTick rfl).1⟩

/-! ## Claim C3 — last/first snapshot accessors -/

/-- C3: for a `BackupPrefs` whose snapshot dates are chronological (the
spec's data-model invariant on `snapshotDates`), `LastSnapshot` is the
maximum element and `FirstSnapshot` the minimum; on an empty list both
return the zero time and no error arises (the accessors are total). -/
theorem snapshot_accessors_minmax (p : BackupPrefs)
    (hs : p.SnapshotDates.Sorted (· ≤ ·)) :
    (p.SnapshotDates = [] →
      p.LastSnapshot = goZeroTime ∧ p.FirstSnapshot = goZeroTime) ∧
    (p.SnapshotDates ≠ [] →
      p.LastSnapshot ∈ p.SnapshotDates ∧
      (∀ t ∈ p.SnapshotDates, t ≤ p.LastSnapshot) ∧
      p.FirstSnapshot ∈ p.SnapshotDates ∧
      (∀ t ∈ p.SnapshotDates, p.FirstSnapshot ≤ t)) := by
  constructor
  · intro h
    simp [BackupPrefs.LastSnapshot, BackupPrefs.FirstSnapshot, h]
  · intro h
    have hlast : p.SnapshotDates.getLast? = some (p.SnapshotDates.getLast h) :=
      List.getLast?_eq_getLast _ h
    have hhead : p.SnapshotDates.head? = some (p.SnapshotDates.head h) :=
      List.head?_eq_head h
    have hL : p.LastSnapshot = p.SnapshotDates.getLast h := by
      simp [BackupPrefs.LastSnapshot, hlast]
    have hF : p.FirstSnapshot = p.SnapshotDates.head h := by
      simp [BackupPrefs.FirstSnapshot, hhead]
    refine ⟨?_, ?_, ?_, ?_⟩
    · rw [hL]; exact List.getLast_mem h
    · intro t ht; rw [hL]; exact sorted_le_getLast? hs ht hlast
    · rw [hF]; exact List.head_mem h
    · intro t ht; rw [hF]; exact sorted_head?_le hs ht hhead

/-- C3 witness: a concrete sorted two-element history. -/
theorem snapshot_accessors_minmax_witness :
    ({ SnapshotDates := [100, 200] } : BackupPrefs).LastSnapshot = 200 ∧
    ({ SnapshotDates := [100, 200] } : BackupPrefs).FirstSnapshot = 100 ∧
    (∀ t ∈ ({ SnapshotDates := [100, 200] } : BackupPrefs).SnapshotDates,
      t ≤ ({ SnapshotDates := [100, 200] } : BackupPrefs).LastSnapshot) := by
  have h := snapshot_accessors_minmax ({ SnapshotDates := [100, 200] } : BackupPrefs)
    (by simp [List.Sorted])
  exact ⟨by decide, by decide, (h.2 (by decide)).2.1⟩

/-! ## Claim C2 — the last-backup duration -/

/-- A preferences snapshot whose single attempt date is Go's zero time
(0001-01-01T00:00:00Z, representable and parseable from the plist text). -/
def cexPrefsDuration : BackupPrefs :=
  { SnapshotDates := [civilSeconds 2026 2 7 10 0 0], AttemptDates := [goZeroTime] }

/-- C2 counterexample: the code uses the zero `time.Time` as the sentinel for
"no qualifying attempt", so an attempt date equal to the zero time — which is
on or before the last snapshot — is ignored and the result is `0`, while the
claim's formula (`specLastBackupDuration`) yields the nonzero difference. -/
theorem lastBackupDuration_cex :
    cexPrefsDuration.LastBackupDuration ≠ specLastBackupDuration cexPrefsDuration := by
  decide

/-- C2 (amended): `LastBackupDuration` is zero when `snapshotDates` is empty,
when `attemptDates` is empty, and when no attempt is on or before the last
snapshot; and it equals the spec's formula — last snapshot minus the latest
attempt on or before it — provided the last snapshot is not the zero time and
some qualifying attempt lies strictly after the zero time (the code treats
the zero time as "absent", so attempts at or before it cannot qualify as the
latest one). -/
theorem lastBackupDuration_amended (p : BackupPrefs) :
    (p.SnapshotDates = [] → p.LastBackupDuration = 0) ∧
    (p.AttemptDates = [] → p.LastBackupDuration = 0) ∧
    ((∀ a ∈ p.AttemptDates, p.LastSnapshot < a) → p.LastBackupDuration = 0) ∧
    (p.LastSnapshot ≠ goZeroTime →
      ∀ a₀ ∈ p.AttemptDates, a₀ ≤ p.LastSnapshot → goZeroTime < a₀ →
        p.LastBackupDuration = specLastBackupDuration p) := by
  refine ⟨?_, ?_, ?_, ?_⟩
  · intro h
    have : p.LastSnapshot = goZeroTime := by simp [BackupPrefs.LastSnapshot, h]
    simp [BackupPrefs.LastBackupDuration, this]
  · intro h
    simp [BackupPrefs.LastBackupDuration, h]
  · intro h
    by_cases hz : p.LastSnapshot = goZeroTime ∨ p.AttemptDates = []
    · simp [BackupPrefs.LastBackupDuration, hz]
    · have hfil : p.AttemptDates.filter (fun a => a ≤ p.LastSnapshot) = [] := by
        rw [List.filter_eq_nil_iff]
        intro a ha
        simpa using not_le.mpr (h a ha)
      simp only [BackupPrefs.LastBackupDuration, hz, if_neg, not_false_iff]
      rw [bestFold_eq, hfil]
      simp
  · intro hne a₀ ha₀ hle hpos
    have hattne : p.AttemptDates ≠ [] := fun h => by simp [h] at ha₀
    have hsnapne : p.SnapshotDates ≠ [] := by
      intro h
      exact hne (by simp [BackupPrefs.LastSnapshot, h])
    have hguard : ¬ (p.LastSnapshot = goZeroTime ∨ p.AttemptDates = []) := by
      push_neg; exact ⟨hne, hattne⟩
    have hmemfil : a₀ ∈ p.AttemptDates.filter (fun a => a ≤ p.LastSnapshot) :=
      List.mem_filter.mpr ⟨ha₀, by simpa using hle⟩
    rcases hF : p.AttemptDates.filter (fun a => a ≤ p.LastSnapshot) with _ | ⟨q, qs⟩
    · rw [hF] at hmemfil; simp at hmemfil
    · have hB : p.AttemptDates.foldl
          (fun best a => if ¬ p.LastSnapshot < a ∧ best < a then a else best)
          goZeroTime = (q :: qs).foldl max goZeroTime := by
        rw [bestFold_eq, hF]
      have hBS : (q :: qs).foldl max goZeroTime = qs.foldl max q := by
        apply le_antisymm
        · rcases foldl_max_mem (q :: qs) goZeroTime with hx | hx
          · exfalso
            have h1 : a₀ ≤ (q :: qs).foldl max goZeroTime :=
              le_foldl_max _ _ (hF ▸ hmemfil)
            rw [hx] at h1
            exact absurd h1 (not_le.mpr hpos)
          · rcases List.mem_cons.mp hx with hq | hq
            · rw [hq]; exact foldl_max_init_le qs q
            · exact le_foldl_max qs q hq
        · rw [List.foldl_cons]
          exact foldl_max_mono_init qs (le_max_right goZeroTime q)
      have hBne : (q :: qs).foldl max goZeroTime ≠ goZeroTime := by
        intro hx
        have h1 : a₀ ≤ (q :: qs).foldl max goZeroTime :=
          le_foldl_max _ _ (hF ▸ hmemfil)
        rw [hx] at h1
        exact absurd h1 (not_le.mpr hpos)
      have hBne' : qs.foldl max q ≠ goZeroTime := by rw [← hBS]; exact hBne
      have hgl : p.SnapshotDates.getLast? = some p.LastSnapshot := by
        rw [List.getLast?_eq_getLast _ hsnapne]
        simp [BackupPrefs.LastSnapshot, List.getLast?_eq_getLast _ hsnapne]
      simp only [BackupPrefs.LastBackupDuration, hguard, if_neg, not_false_iff,
        specLastBackupDuration, hgl, hB, hBne, hF, hBS]
      rw [if_neg hBne']

/-- The spec's own twenty-minute example. -/
def examplePrefsDuration : BackupPrefs :=
  { SnapshotDates := [civilSeconds 2026 2 1 10 0 0, civilSeconds 2026 2 5 10 0 0],
    AttemptDates := [civilSeconds 2026 2 1 9 50 0, civilSeconds 2026 2 5 9 40 0] }

/-- C2 amended witness: on the spec's example the code value, the spec
formula and the twenty-minute figure (1200 seconds) all agree. -/
theorem lastBackupDuration_amended_witness :
    examplePrefsDuration.LastBackupDuration
        = specLastBackupDuration examplePrefsDuration ∧
    examplePrefsDuration.LastBackupDuration = 1200 :=
  ⟨(lastBackupDuration_amended examplePrefsDuration).2.2.2 (by decide)
      (civilSeconds 2026 2 5 9 40 0) (by decide) (by decide) (by decide),
    by decide⟩

/-! ## Claim C9 — duration formatting -/

theorem append_plural_fold (x w s : String) (h : " " ++ (w ++ "s") = s) :
    x ++ " " ++ w ++ "s" = x ++ s := by
  rw [String.append_assoc, String.append_assoc, h]

/-- C9: `FormatDuration` renders every duration as the comma-joined list of
its non-zero units among days, hours, minutes and seconds (in that order),
with singular wording exactly for the value one — the word list being
`specDurationWords`, transcribed from the spec — renders any duration under
one second as the fixed string `"0 seconds"`, and produces the three concrete
examples of the spec. -/
theorem formatDuration_spec :
    (∀ d : Int, d < 1 → FormatDuration d = "0 seconds") ∧
    (∀ d : Int, 1 ≤ d →
      FormatDuration d = String.intercalate ", " (specDurationWords d)) ∧
    FormatDuration 90 = "1 minute, 30 seconds" ∧
    FormatDuration 0 = "0 seconds" ∧
    FormatDuration 3661 = "1 hour, 1 minute, 1 second" := by
  refine ⟨?_, ?_, by decide, by decide, by decide⟩
  · intro d hd
    simp [FormatDuration, hd]
  · intro d hd
    have hday : ∀ n : Int,
        (if n = 1 then "1 day" else toString n ++ " days")
          = (if n = 1 then "1 " ++ "day" else toString n ++ " " ++ "day" ++ "s") := by
      intro n
      by_cases h : n = 1
      · simp [h]
      · simp only [h, if_neg, not_false_iff]
        exact (append_plural_fold _ _ _ (by decide)).symm
    have hhour : ∀ n : Int,
        (if n = 1 then "1 hour" else toString n ++ " hours")
          = (if n = 1 then "1 " ++ "hour" else toString n ++ " " ++ "hour" ++ "s") := by
      intro n
      by_cases h : n = 1
      · simp [h]
      · simp only [h, if_neg, not_false_iff]
        exact (append_plural_fold _ _ _ (by decide)).symm
    have hminute : ∀ n : Int,
        (if n = 1 then "1 minute" else toString n ++ " minutes")
          = (if n = 1 then "1 " ++ "minute" else toString n ++ " " ++ "minute" ++ "s") := by
      intro n
      by_cases h : n = 1
      · simp [h]
      · simp only [h, if_neg, not_false_iff]
        exact (append_plural_fold _ _ _ (by decide)).symm
    have hsecond : ∀ n : Int,
        (if n = 1 then "1 second" else toString n ++ " seconds")
          = (if n = 1 then "1 " ++ "second" else toString n ++ " " ++ "second" ++ "s") := by
      intro n
      by_cases h : n = 1
      · simp [h]
      · simp only [h, if_neg, not_false_iff]
        exact (append_plural_fold _ _ _ (by decide)).symm
    rw [FormatDuration, if_neg (not_lt.mpr hd)]
    simp only [specDurationWords]
    by_cases h1 : 0 < d / 86400 <;> by_cases h2 : 0 < d / 3600 % 24 <;>
      by_cases h3 : 0 < d / 60 % 60 <;> by_cases h4 : 0 < d % 60 <;>
      simp [h1, h2, h3, h4, List.filter_cons, hday, hhour, hminute, hsecond]

/-- C9 witness: the general branch applied to the concrete 90-second input. -/
theorem formatDuration_spec_witness :
    FormatDuration 90 = String.intercalate ", " (specDurationWords 90) :=
  formatDuration_spec.2.1 90 (by decide)

/-! ## Claim C5 — absent progress block -/

theorem progressStep_no_prefix {l : List Char} (m : FieldMap)
    (h : isPrefixL progressPrefixL (trimChars l) = false) :
    progressStep (m, 0) l = (m, 0) := by
  simp [progressStep, h]

theorem parseProgress_no_prefix :
    ∀ (ls : List (List Char)) (m : FieldMap),
      (∀ l ∈ ls, isPrefixL progressPrefixL (trimChars l) = false) →
      ls.foldl progressStep (m, 0) = (m, 0) := by
  intro ls
  induction ls with
  | nil => intro m _; rfl
  | cons l t ih =>
    intro m h
    rw [List.foldl_cons, progressStep_no_prefix m (h l (by simp))]
    exact ih m (fun x hx => h x (by simp [hx]))

/-- C5: when no line of the raw status text opens a `Progress` block, the
progress map stays empty — nothing is ever assigned — so the built
`StatusSnapshot` carries the zero defaults for all six progress fields
(Go encodes absence as the zero value together with the guards below); and
the monitor treats a `TotalBytes` of zero as "no size information": the
`Bytes:` line is rendered only when `TotalBytes` is positive, and the running
body is exactly the concatenation in which that conditional segment
participates. -/
theorem no_progress_fields_absent :
    (∀ ls : List (List Char),
      (∀ l ∈ ls, isPrefixL progressPrefixL (trimChars l) = false) →
      (parseProgressL ls).1 = emptyF ∧
      (parseStatusInfoL ls).Percent = 0 ∧ (parseStatusInfoL ls).TimeRemaining = 0 ∧
      (parseStatusInfoL ls).BytesCopied = 0 ∧ (parseStatusInfoL ls).TotalBytes = 0 ∧
      (parseStatusInfoL ls).FilesCopied = 0 ∧ (parseStatusInfoL ls).TotalFiles = 0) ∧
    (∀ info : StatusInfo, info.TotalBytes = 0 → monitorBytesSeg info = "") ∧
    (∀ (m : MonitorModel) (now : Int) (fc : Int → String) (sf se : String → String),
      m.err = none → m.done = false → m.info.Running = true →
      m.renderBody now fc sf se =
        monitorPhaseSeg m.info ++ monitorDestSeg m.info ++ "\n" ++
        renderProgressBar sf se m.info.Percent ++ "  " ++
        fmtFixed1 (m.info.Percent * 100) ++ "%\n\n" ++
        monitorBytesSeg m.info ++ monitorFilesSeg m.info ++
        monitorRemainSeg now fc m.info ++
        monitorStartedSeg now fc m.info ++
        (if !m.altScreen then "\nq: quit • updates every 1s" else "")) := by
  refine ⟨?_, ?_, ?_⟩
  · intro ls h
    have hp : parseProgressL ls = (emptyF, 0) := parseProgress_no_prefix ls emptyF h
    refine ⟨by rw [hp], ?_, ?_, ?_, ?_, ?_, ?_⟩ <;>
      simp [parseStatusInfoL, buildStatusInfo, hp, emptyF]
  · intro info h
    simp [monitorBytesSeg, h]
  · intro m now fc sf se herr hdone hrun
    simp [MonitorModel.renderBody, herr, hdone, hrun]

/-- C5 witness: a raw text with a `Running` line but no `Progress` block. -/
theorem no_progress_fields_absent_witness :
    (parseStatusInfo "Running = 1;").TotalBytes = 0 ∧
    monitorBytesSeg (parseStatusInfo "Running = 1;") = "" := by
  have h1 := (no_progress_fields_absent.1 (linesOf "Running = 1;")
    (by decide)).2.2.2.2.1
  exact ⟨h1, no_progress_fields_absent.2.1 _ h1⟩

/-! ## Claim C8 — well-formed scalar assignment lines -/

theorem dropWhile_replicate_append {p : Char → Bool} {a : Char} (h : p a = true)
    (n : Nat) (l : List Char) :
    List.dropWhile p (List.replicate n a ++ l) = List.dropWhile p l := by
  induction n with
  | zero => simp
  | succ n ih =>
    rw [List.replicate_succ, List.cons_append, List.dropWhile_cons_of_pos (by simp [h])]
    exact ih

theorem trimChars_padded {c d : Char} (n m : Nat) (mid : List Char)
    (hc : c.isWhitespace = false) (hd : d.isWhitespace = false) :
    trimChars (List.replicate n ' ' ++ ((c :: mid) ++ [d]) ++ List.replicate m ' ')
      = (c :: mid) ++ [d] := by
  unfold trimChars dropAround
  have e1 : (List.replicate n ' ' ++ ((c :: mid) ++ [d])) ++ List.replicate m ' '
      = List.replicate n ' ' ++ (c :: ((mid ++ [d]) ++ List.replicate m ' ')) := by
    simp [List.append_assoc]
  rw [e1, dropWhile_replicate_append (by decide) n,
    List.dropWhile_cons_of_neg (by simp [hc])]
  have e2 : c :: ((mid ++ [d]) ++ List.replicate m ' ')
      = ((c :: mid) ++ [d]) ++ List.replicate m ' ' := by
    simp [List.append_assoc]
  rw [e2, List.reverse_append, List.reverse_replicate,
    dropWhile_replicate_append (by decide) m]
  have e3 : ((c :: mid) ++ [d]).reverse = d :: (c :: mid).reverse := by
    rw [List.reverse_append]; rfl
  rw [e3, List.dropWhile_cons_of_neg (by simp [hd])]
  rw [← e3, List.reverse_reverse]

theorem trimQuotes_wrap (v : List Char) (h1 : headIs '"' v = false)
    (h2 : lastIs '"' v = false) :
    trimQuotes ('"' :: (v ++ ['"'])) = v := by
  unfold trimQuotes dropAround
  rw [List.dropWhile_cons_of_pos (by decide)]
  cases v with
  | nil => simp [List.dropWhile]
  | cons w wt =>
    have hw : (w == '"') = false := by
      simpa [headIs] using h1
    rw [List.cons_append, List.dropWhile_cons_of_neg (by simp [hw]),
      ← List.cons_append]
    have e1 : ((w :: wt) ++ ['"']).reverse = '"' :: (w :: wt).reverse := by
      rw [List.reverse_append]; rfl
    rw [e1, List.dropWhile_cons_of_pos (by decide)]
    have hnil : (w :: wt).reverse ≠ [] := by simp
    rcases hrev : (w :: wt).reverse with _ | ⟨x, xs⟩
    · exact absurd hrev hnil
    · have hx : (x == '"') = false := by
        have h2' := h2
        unfold lastIs at h2'
        rw [hrev] at h2'
        simpa [headIs] using h2'
      rw [List.dropWhile_cons_of_neg (by simp [hx]), ← hrev,
        List.reverse_reverse]

theorem trimChars_key {k : List Char} (hk1 : k ≠ [])
    (hk2 : k.all goodKeyChar = true) : trimChars k = k := by
  cases k with
  | nil => exact absurd rfl hk1
  | cons c t =>
    apply dropAround_cons_eq_self
    · have := (List.all_eq_true.mp hk2) c (by simp)
      simp only [goodKeyChar, Bool.and_eq_true, Bool.not_eq_true'] at this
      exact this.1
    · intro x hx
      have hmem : x ∈ c :: t := List.mem_of_mem_getLast? hx
      have := (List.all_eq_true.mp hk2) x hmem
      simp only [goodKeyChar, Bool.and_eq_true, Bool.not_eq_true'] at this
      exact this.1

/-- Processing one well-formed scalar line outside the progress block
assigns exactly the quote- and semicolon-stripped binding. -/
theorem fieldsStep_scalar (m : FieldMap) (ind tail : Nat) (k v : String)
    (hk1 : k.data ≠ []) (hk2 : k.data.all goodKeyChar = true)
    (hv1 : headIs '"' v.data = false) (hv2 : lastIs '"' v.data = false)
    (hprog : isPrefixL progressPrefixL (scalarCore k v) = false) :
    fieldsStep (m, false) (mkScalarLine ind tail k v) = (updateF m k v, false) := by
  obtain ⟨c, kt, hkc⟩ : ∃ c kt, k.data = c :: kt := by
    rcases h : k.data with _ | ⟨c, kt⟩
    · exact absurd h hk1
    · exact ⟨c, kt, rfl⟩
  have hcw : c.isWhitespace = false := by
    have := (List.all_eq_true.mp hk2) c (by rw [hkc]; simp)
    simp only [goodKeyChar, Bool.and_eq_true, Bool.not_eq_true'] at this
    exact this.1
  have hcsp : ∀ x ∈ k.data, x ≠ ' ' := by
    intro x hx hsp
    have hgx := (List.all_eq_true.mp hk2) x hx
    simp only [goodKeyChar, Bool.and_eq_true, Bool.not_eq_true'] at hgx
    rw [hsp] at hgx
    exact absurd hgx.1 (by decide)
  have hcore : scalarCore k v
      = (c :: (kt ++ (" = \"".data ++ v.data ++ ['"']))) ++ [';'] := by
    unfold scalarCore
    rw [hkc]
    simp [List.append_assoc]
  have htrim : trimChars (mkScalarLine ind tail k v) = scalarCore k v := by
    unfold mkScalarLine
    rw [hcore]
    exact trimChars_padded ind tail _ hcw (by decide)
  have hlen : scalarCore k v ≠ ['{'] ∧ scalarCore k v ≠ ['}'] ∧ scalarCore k v ≠ [] := by
    refine ⟨?_, ?_, ?_⟩ <;> {
      intro h
      have := congrArg List.length h
      rw [hcore] at this
      simp at this
    }
  have hsuffix : trimSuffixL [';'] (scalarCore k v)
      = c :: (kt ++ (" = \"".data ++ v.data ++ ['"'])) := by
    rw [hcore]
    exact trimSuffixL_concat_self ';' _
  have hsplitarg : c :: (kt ++ (" = \"".data ++ v.data ++ ['"']))
      = k.data ++ sepEq ++ ('"' :: (v.data ++ ['"'])) := by
    rw [hkc]
    show c :: (kt ++ ([' ', '=', ' ', '"'] ++ v.data ++ ['"']))
      = (c :: kt) ++ sepEq ++ ('"' :: (v.data ++ ['"']))
    simp [sepEq, List.append_assoc]
  have hsplit : splitFirstAux sepEq (trimSuffixL [';'] (scalarCore k v))
      = some (k.data, '"' :: (v.data ++ ['"'])) := by
    rw [hsuffix, hsplitarg]
    exact splitFirstAux_boundary _ hcsp
  have hkey : trimChars k.data = k.data := trimChars_key hk1 hk2
  have hbval : trimChars ('"' :: (v.data ++ ['"'])) = '"' :: (v.data ++ ['"']) := by
    apply dropAround_cons_eq_self
    · decide
    · intro x hx
      rw [show '"' :: (v.data ++ ['"']) = ('"' :: v.data) ++ ['"'] from rfl,
        List.getLast?_concat] at hx
      cases hx
      decide
  have hval : trimQuotes (trimChars ('"' :: (v.data ++ ['"']))) = v.data := by
    rw [hbval]
    exact trimQuotes_wrap v.data hv1 hv2
  simp only [fieldsStep, htrim, hprog, Bool.false_eq_true, if_false]
  rw [if_neg (by simpa using hlen), hsplit]
  simp only [hkey, hval]

/-- C8: for every well-formed scalar assignment line `key = "value";` —
ordinary key, value not itself quote-delimited, not the `Progress` block
opener — the parser binds `key` to `value` with the surrounding whitespace
trimmed and the quotes and trailing semicolon stripped; and when the same
key is assigned on two lines of one document, the later line's value wins. -/
theorem parseFields_scalar_lastWins (pre : List (List Char)) (ind tail : Nat)
    (k v v' : String)
    (hk1 : k.data ≠ []) (hk2 : k.data.all goodKeyChar = true)
    (hv1 : headIs '"' v.data = false) (hv2 : lastIs '"' v.data = false)
    (hv1' : headIs '"' v'.data = false) (hv2' : lastIs '"' v'.data = false)
    (hprog : isPrefixL progressPrefixL (scalarCore k v) = false)
    (hprog' : isPrefixL progressPrefixL (scalarCore k v') = false)
    (hpre : (parseFieldsL pre).2 = false) :
    (parseFieldsL (pre ++ [mkScalarLine ind tail k v])).1 k = some v ∧
    (parseFieldsL (pre ++ [mkScalarLine ind tail k v, mkScalarLine ind tail k v'])).1 k
      = some v' := by
  have hpair : parseFieldsL pre = ((parseFieldsL pre).1, false) := by
    rw [← hpre]
  constructor
  · unfold parseFieldsL
    rw [List.foldl_append]
    show (List.foldl fieldsStep (parseFieldsL pre) _).1 k = some v
    rw [hpair, List.foldl_cons, List.foldl_nil,
      fieldsStep_scalar _ ind tail k v hk1 hk2 hv1 hv2 hprog]
    simp [updateF]
  · unfold parseFieldsL
    rw [List.foldl_append]
    show (List.foldl fieldsStep (parseFieldsL pre) _).1 k = some v'
    rw [hpair, List.foldl_cons,
      fieldsStep_scalar _ ind tail k v hk1 hk2 hv1 hv2 hprog, List.foldl_cons,
      fieldsStep_scalar _ ind tail k v' hk1 hk2 hv1' hv2' hprog', List.foldl_nil]
    simp [updateF]

/-- C8 witness: the two-line document `Running = "0"; / Running = "1";` with
four leading blanks on each line binds `Running` to the later value `1`. -/
theorem parseFields_scalar_lastWins_witness :
    (parseFieldsL ([] ++ [mkScalarLine 4 0 "Running" "0",
        mkScalarLine 4 0 "Running" "1"])).1 "Running" = some "1" :=
  (parseFields_scalar_lastWins [] 4 0 "Running" "0" "1"
    (by decide) (by decide) (by decide) (by decide) (by decide) (by decide)
    (by decide) (by decide) rfl).2

/-! ## Claim C6 — unrecognized lines are skipped, parsers never fail -/

theorem benign_not_mem {g : List Char} (hg : g.all benignChar = true) {c : Char}
    (hc : benignChar c = false) : c ∉ g := by
  intro h
  have := (List.all_eq_true.mp hg) c h
  rw [hc] at this
  cases this

theorem fieldsStep_benign (acc : FieldMap × Bool) {g : List Char}
    (hg : g.all benignChar = true) : fieldsStep acc g = acc := by
  have hTeq : '=' ∉ trimChars g :=
    fun h => benign_not_mem hg (by decide) (mem_trimChars h)
  have hTcl : '}' ∉ trimChars g :=
    fun h => benign_not_mem hg (by decide) (mem_trimChars h)
  have hp : isPrefixL progressPrefixL (trimChars g) = false := by
    cases h : isPrefixL progressPrefixL (trimChars g) with
    | false => rfl
    | true => exact absurd (mem_of_isPrefixL h '=' (by decide)) hTeq
  have hnone : splitFirstAux sepEq (trimSuffixL [';'] (trimChars g)) = none :=
    splitFirstAux_eq_none_of_not_mem (c := '=') (by decide)
      (fun h => hTeq (mem_trimSuffixL h))
  simp only [fieldsStep, hp, Bool.false_eq_true, if_false, hnone]
  by_cases h2 : acc.2 = true
  · rw [if_pos h2, if_neg (fun he => hTcl (by rw [he]; simp))]
  · rw [if_neg h2]
    by_cases h3 : trimChars g = ['{'] ∨ trimChars g = ['}'] ∨ trimChars g = []
    · rw [if_pos h3]
    · rw [if_neg h3]

theorem progressStep_benign (acc : FieldMap × Nat) {g : List Char}
    (hg : g.all benignChar = true) : progressStep acc g = acc := by
  have hTeq : '=' ∉ trimChars g :=
    fun h => benign_not_mem hg (by decide) (mem_trimChars h)
  have hTcl : '}' ∉ trimChars g :=
    fun h => benign_not_mem hg (by decide) (mem_trimChars h)
  have hTop : '{' ∉ trimChars g :=
    fun h => benign_not_mem hg (by decide) (mem_trimChars h)
  have hp : isPrefixL progressPrefixL (trimChars g) = false := by
    cases h : isPrefixL progressPrefixL (trimChars g) with
    | false => rfl
    | true => exact absurd (mem_of_isPrefixL h '=' (by decide)) hTeq
  have hnone : splitFirstAux sepEq (trimSuffixL [';'] (trimChars g)) = none :=
    splitFirstAux_eq_none_of_not_mem (c := '=') (by decide)
      (fun h => hTeq (mem_trimSuffixL h))
  simp only [progressStep, hp, Bool.false_eq_true, if_false, hnone]
  by_cases h0 : acc.2 = 2
  · rw [if_pos h0]
  · rw [if_neg h0]
    by_cases h1 : acc.2 = 0
    · rw [if_pos h1]
    · rw [if_neg h1, if_neg (fun he => hTcl (by rw [he]; simp)),
        if_neg (fun he => hTop (by rw [he]; simp))]

theorem topStep_benign (p : BackupPrefs) {g : List Char}
    (hg : g.all benignChar = true) : topStep p g = p := by
  have hTeq : '=' ∉ trimChars g :=
    fun h => benign_not_mem hg (by decide) (mem_trimChars h)
  have hnone : splitFirstAux sepEq (trimSuffixL [';'] (trimChars g)) = none :=
    splitFirstAux_eq_none_of_not_mem (c := '=') (by decide)
      (fun h => hTeq (mem_trimSuffixL h))
  simp only [topStep, hnone]

theorem destStep_benign (acc : BackupPrefs × DestCtl) {g : List Char}
    (hg : g.all benignChar = true) : destStep acc g = acc := by
  have hTeq : '=' ∉ trimChars g :=
    fun h => benign_not_mem hg (by decide) (mem_trimChars h)
  have hTcl : '}' ∉ trimChars g :=
    fun h => benign_not_mem hg (by decide) (mem_trimChars h)
  have hTop : '{' ∉ trimChars g :=
    fun h => benign_not_mem hg (by decide) (mem_trimChars h)
  have hTpo : '(' ∉ trimChars g :=
    fun h => benign_not_mem hg (by decide) (mem_trimChars h)
  have hTpc : ')' ∉ trimChars g :=
    fun h => benign_not_mem hg (by decide) (mem_trimChars h)
  have hdp : isPrefixL destPrefixL (trimChars g) = false := by
    cases h : isPrefixL destPrefixL (trimChars g) with
    | false => rfl
    | true => exact absurd (mem_of_isPrefixL h '=' (by decide)) hTeq
  have hcont : containsSubL sepEq (trimChars g) = false :=
    containsSubL_false_of_not_mem (c := '=') (by decide) hTeq
  have hcol : collectDate g = none := by
    have hq : '"' ∉ trimChars (trimSuffixL [','] (trimChars g)) :=
      fun h => benign_not_mem hg (by decide)
        (mem_trimChars (mem_trimSuffixL (mem_trimChars h)))
    have hh : headIs '"' (trimChars (trimSuffixL [','] (trimChars g))) = false := by
      cases h : headIs '"' (trimChars (trimSuffixL [','] (trimChars g))) with
      | false => rfl
      | true => exact absurd (headIs_mem h) hq
    simp [collectDate, hh]
  simp only [destStep, hdp, hcont, Bool.false_eq_true, if_false, hcol]
  by_cases h0 : acc.2.stopped = true
  · rw [if_pos h0]
  · rw [if_neg h0]
    by_cases h1 : acc.2.inDest
    · simp only [h1, Bool.not_true, Bool.false_eq_true, if_false]
      rw [if_neg (by
        rintro (he | he)
        · exact hTpo (by rw [he]; simp)
        · exact hTop (by rw [he]; simp))]
      rw [if_neg (by
        rintro (he | he)
        · exact hTpc (by rw [he]; simp)
        · exact hTpc (by rw [he]; simp))]
      rw [if_neg (by
        rintro (he | he)
        · exact hTcl (by rw [he]; simp)
        · exact hTcl (by rw [he]; simp))]
      by_cases h2 : acc.2.inSnapshots ∨ acc.2.inAttempts
      · rw [if_pos h2]
      · rw [if_neg h2]
    · simp [h1]

/-- C6: the status and preferences parsers are total functions returning a
(possibly empty or partial) result for every input — they are Lean functions,
so no failure is even representable — and unrecognized lines are silently
skipped: inserting a line holding none of the characters any parser branch
keys on (`=`, `"` and the four brackets) anywhere in a document leaves both
parse results unchanged. -/
theorem parsers_skip_unrecognized (pre post : List (List Char)) (g : List Char)
    (hg : g.all benignChar = true) :
    parseStatusInfoL (pre ++ g :: post) = parseStatusInfoL (pre ++ post) ∧
    parsePrefsL (pre ++ g :: post) = parsePrefsL (pre ++ post) := by
  have hsplit : pre ++ g :: post = (pre ++ [g]) ++ post := by simp
  have hfields : parseFieldsL (pre ++ g :: post) = parseFieldsL (pre ++ post) := by
    unfold parseFieldsL
    rw [hsplit, List.foldl_append, List.foldl_append, List.foldl_append,
      List.foldl_cons, List.foldl_nil, fieldsStep_benign _ hg]
  have hprog : parseProgressL (pre ++ g :: post) = parseProgressL (pre ++ post) := by
    unfold parseProgressL
    rw [hsplit, List.foldl_append, List.foldl_append, List.foldl_append,
      List.foldl_cons, List.foldl_nil, progressStep_benign _ hg]
  have htop : ∀ p : BackupPrefs,
      (pre ++ g :: post).foldl topStep p = (pre ++ post).foldl topStep p := by
    intro p
    rw [hsplit, List.foldl_append, List.foldl_append, List.foldl_append,
      List.foldl_cons, List.foldl_nil, topStep_benign _ hg]
  have hdest : ∀ acc : BackupPrefs × DestCtl,
      (pre ++ g :: post).foldl destStep acc = (pre ++ post).foldl destStep acc := by
    intro acc
    rw [hsplit, List.foldl_append, List.foldl_append, List.foldl_append,
      List.foldl_cons, List.foldl_nil, destStep_benign _ hg]
  constructor
  · unfold parseStatusInfoL
    rw [hfields, hprog]
  · unfold parsePrefsL
    rw [htop, hdest]

/-- C6 witness: inserting a noise line into a small status document changes
neither parse result. -/
theorem parsers_skip_unrecognized_witness :
    parseStatusInfoL ([scalarCore "Running" "1"] ++ "random noise !!".data :: []) =
      parseStatusInfoL ([scalarCore "Running" "1"] ++ []) ∧
    parsePrefsL ([scalarCore "Running" "1"] ++ "random noise !!".data :: []) =
      parsePrefsL ([scalarCore "Running" "1"] ++ []) :=
  parsers_skip_unrecognized [scalarCore "Running" "1"] [] "random noise !!".data
    (by decide)

/-! ## Claim C4 — the idle report prefers preferences-sourced fields -/

/-- Appending strings concatenates the underlying character data. -/
theorem strData_append (a b : String) : (a ++ b).data = a.data ++ b.data := rfl

theorem containsSubL_of_parts (pat l X Y : List Char) (hsep : pat ≠ [])
    (h : l = X ++ pat ++ Y) : containsSubL pat l = true := by
  rw [h]; exact containsSubL_append_mid _ _ _ hsep

/-- C4: when the status is idle the report is the concatenation of per-field
segments, and each segment prefers the preferences-sourced value whenever the
preferences read succeeded and the field is present there (the segment is
then independent of the live-status source), falling back to the live-status
equivalent exactly when the preferences read failed or the field is absent
(the segment then behaves as if no preferences existed); in particular a
successful preferences read with a (non-sentinel) last snapshot date makes
the report contain `Completed: <that date>`, and the builder is a total
function — no error can arise. -/
theorem formatIdleStatus_precedence :
    (∀ (raw : String) (env : IdleEnv) (fc : Int → String),
      formatIdleStatus raw env fc =
        idleHeader ++ idleAutoSeg (parseFields raw) env.prefs ++
        idleDestSeg env.dest ++ idleEncSeg env.prefs ++
        idleLastSeg env.prefs env.latest fc ++
        idleHistorySeg env.prefs env.paths fc ++ idleDiskSeg env.prefs) ∧
    (∀ (p : BackupPrefs) (f₁ f₂ : FieldMap), p.AutoBackupSet = true →
      idleAutoSeg f₁ (some p) = idleAutoSeg f₂ (some p)) ∧
    (∀ (p : BackupPrefs) (f : FieldMap), p.AutoBackupSet = false →
      idleAutoSeg f (some p) = idleAutoSeg f none) ∧
    (∀ (p : BackupPrefs) (l : Option String) (fc : Int → String),
      p.LastSnapshot ≠ goZeroTime →
      idleLastSeg (some p) l fc =
        "\n  Last Backup\n    Completed:   " ++ fc p.LastSnapshot ++ "\n" ++
        (if 0 < p.LastBackupDuration then
          "    Elapsed:     " ++ FormatDuration p.LastBackupDuration ++ "\n"
        else "")) ∧
    (∀ (p : BackupPrefs) (l : Option String) (fc : Int → String),
      p.LastSnapshot = goZeroTime →
      idleLastSeg (some p) l fc = idleLastSeg none l fc) ∧
    (∀ (p : BackupPrefs) (ps : Option (List String)) (fc : Int → String),
      p.SnapshotDates ≠ [] →
      idleHistorySeg (some p) ps fc =
        "\n  Backup History\n    Total:       " ++
          toString p.SnapshotDates.length ++ " snapshot(s)\n" ++
        "    Oldest:      " ++ fc p.FirstSnapshot ++ "\n" ++
        "    Newest:      " ++ fc p.LastSnapshot ++ "\n") ∧
    (∀ (p : BackupPrefs) (ps : Option (List String)) (fc : Int → String),
      p.SnapshotDates = [] →
      idleHistorySeg (some p) ps fc = idleHistorySeg none ps fc) ∧
    (∀ p : BackupPrefs, p.Encryption ≠ "" →
      idleEncSeg (some p) = "  Encryption:    " ++ p.Encryption ++ "\n") ∧
    (idleDiskSeg none = "") ∧
    (∀ (raw : String) (env : IdleEnv) (fc : Int → String) (p : BackupPrefs),
      env.prefs = some p → p.LastSnapshot ≠ goZeroTime →
      containsSubL ("    Completed:   " ++ fc p.LastSnapshot).data
        (formatIdleStatus raw env fc).data = true) := by
  have hlast : ∀ (p : BackupPrefs) (l : Option String) (fc : Int → String),
      p.LastSnapshot ≠ goZeroTime →
      idleLastSeg (some p) l fc =
        "\n  Last Backup\n    Completed:   " ++ fc p.LastSnapshot ++ "\n" ++
        (if 0 < p.LastBackupDuration then
          "    Elapsed:     " ++ FormatDuration p.LastBackupDuration ++ "\n"
        else "") := by
    intro p l fc h
    simp [idleLastSeg, h]
  refine ⟨fun raw env fc => rfl, ?_, ?_, hlast, ?_, ?_, ?_, ?_, rfl, ?_⟩
  · intro p f₁ f₂ h
    simp [idleAutoSeg, h]
  · intro p f h
    simp [idleAutoSeg, h]
  · intro p l fc h
    simp [idleLastSeg, h]
  · intro p ps fc h
    simp [idleHistorySeg, h]
  · intro p ps fc h
    simp [idleHistorySeg, h]
  · intro p h
    simp [idleEncSeg, h]
  · intro raw env fc p hp hne
    have hsplitlit : ("\n  Last Backup\n    Completed:   " : String)
        = "\n  Last Backup\n" ++ "    Completed:   " := by decide
    have hform : formatIdleStatus raw env fc =
        idleHeader ++ idleAutoSeg (parseFields raw) (some p) ++
        idleDestSeg env.dest ++ idleEncSeg (some p) ++
        (("\n  Last Backup\n" ++ "    Completed:   ") ++ fc p.LastSnapshot ++ "\n" ++
          (if 0 < p.LastBackupDuration then
            "    Elapsed:     " ++ FormatDuration p.LastBackupDuration ++ "\n"
          else "")) ++
        idleHistorySeg (some p) env.paths fc ++ idleDiskSeg (some p) := by
      rw [show formatIdleStatus raw env fc =
          idleHeader ++ idleAutoSeg (parseFields raw) env.prefs ++
          idleDestSeg env.dest ++ idleEncSeg env.prefs ++
          idleLastSeg env.prefs env.latest fc ++
          idleHistorySeg env.prefs env.paths fc ++ idleDiskSeg env.prefs from rfl,
        hp, hlast p env.latest fc hne, hsplitlit]
    apply containsSubL_of_parts _ _
      ((idleHeader ++ idleAutoSeg (parseFields raw) (some p) ++
        idleDestSeg env.dest ++ idleEncSeg (some p)).data ++ "\n  Last Backup\n".data)
      ("\n".data ++
        (if 0 < p.LastBackupDuration then
          "    Elapsed:     " ++ FormatDuration p.LastBackupDuration ++ "\n"
        else "").data ++
        (idleHistorySeg (some p) env.paths fc).data ++ (idleDiskSeg (some p)).data)
    · intro h
      have h1 : ("    Completed:   " : String).data = [] :=
        (List.append_eq_nil.mp (by rw [← strData_append, h])).1
      cases h1
    · rw [hform]
      simp only [strData_append, List.append_assoc]

/-- C4 witness: a concrete idle environment whose preferences read succeeded
with the twenty-minute example history; the report contains the completed
line for the last snapshot. -/
theorem formatIdleStatus_precedence_witness :
    containsSubL ("    Completed:   " ++
        (fun t => toString t) (examplePrefsDuration.LastSnapshot)).data
      (formatIdleStatus "Running = 0;"
        { prefs := some examplePrefsDuration, dest := none, latest := none,
          paths := none } (fun t => toString t)).data = true :=
  formatIdleStatus_precedence.2.2.2.2.2.2.2.2.2 "Running = 0;"
    { prefs := some examplePrefsDuration, dest := none, latest := none,
      paths := none } (fun t => toString t) examplePrefsDuration rfl (by decide)

/-! ## Claim C7 — arrays are collected by name only -/

/-- The scanner state between two named-array blocks inside the first
destination dictionary. -/
def midCtl : DestCtl :=
  { inDest := true, inSnapshots := false, inAttempts := false, inArray := [],
    depth := 1, stopped := false }

/-- The scanner state while the named array `n` is open. -/
def openCtl (n : List Char) : DestCtl :=
  if n = "SnapshotDates".data then { midCtl with inArray := n, inSnapshots := true }
  else if n = "AttemptDates".data then { midCtl with inArray := n, inAttempts := true }
  else { midCtl with inArray := n }

theorem goodName_ne_nil {n : List Char} (hn : goodName n = true) : n ≠ [] := by
  intro h
  rw [h] at hn
  cases hn

theorem goodName_all {n : List Char} (hn : goodName n = true) :
    n.all goodKeyChar = true := by
  unfold goodName at hn
  simp only [Bool.and_eq_true] at hn
  exact hn.2

theorem destStep_opener (p : BackupPrefs) (n : List Char)
    (hn : goodName n = true) :
    destStep (p, midCtl) (n ++ " = (".data) = (p, openCtl n) := by
  have hne := goodName_ne_nil hn
  have hall := goodName_all hn
  obtain ⟨c, kt, hkc⟩ : ∃ c kt, n = c :: kt := by
    rcases h : n with _ | ⟨c, kt⟩
    · exact absurd h hne
    · exact ⟨c, kt, rfl⟩
  have hcw : c.isWhitespace = false := by
    have := (List.all_eq_true.mp hall) c (by rw [hkc]; simp)
    simp only [goodKeyChar, Bool.and_eq_true, Bool.not_eq_true'] at this
    exact this.1
  have hcsp : ∀ x ∈ n, x ≠ ' ' := by
    intro x hx hsp
    have hgx := (List.all_eq_true.mp hall) x hx
    simp only [goodKeyChar, Bool.and_eq_true, Bool.not_eq_true'] at hgx
    rw [hsp] at hgx
    exact absurd hgx.1 (by decide)
  have hline : n ++ " = (".data = (c :: (kt ++ sepEq)) ++ ['('] := by
    rw [hkc]
    show c :: (kt ++ ([' ', '=', ' '] ++ ['('])) = (c :: (kt ++ sepEq)) ++ ['(']
    simp [sepEq, List.append_assoc]
  have htrim : trimChars (n ++ " = (".data) = n ++ " = (".data := by
    rw [hline]
    exact dropAround_eq_self _ (by simp [hcw]) (by decide)
  have hcontains : containsSubL sepEq (n ++ " = (".data) = true := by
    rw [show n ++ " = (".data = n ++ sepEq ++ ['('] from by
      rw [hkc]; show c :: (kt ++ ([' ', '=', ' '] ++ ['(']))
        = (c :: kt) ++ sepEq ++ ['(']; simp [sepEq, List.append_assoc]]
    exact containsSubL_append_mid _ _ _ (by decide)
  have hsuffix : trimSuffixL [';'] (n ++ " = (".data) = n ++ " = (".data := by
    rw [hline]
    exact trimSuffixL_concat_ne _ (by decide)
  have hsplit : splitFirstAux sepEq (n ++ " = (".data) = some (n, ['(']) := by
    rw [show n ++ " = (".data = n ++ sepEq ++ ['('] from by
      rw [hkc]; show c :: (kt ++ ([' ', '=', ' '] ++ ['(']))
        = (c :: kt) ++ sepEq ++ ['(']; simp [sepEq, List.append_assoc]]
    exact splitFirstAux_boundary _ hcsp
  have hkey : trimChars n = n := trimChars_key hne hall
  simp only [destStep, midCtl, Bool.not_true, Bool.false_eq_true, if_false,
    htrim, hcontains, if_true, hsuffix, hsplit, hkey,
    (by decide : trimQuotes (trimChars ['(']) = ['('])]
  simp only [openCtl, midCtl]

theorem destStep_member (p : BackupPrefs) (n m : List Char)
    (hm : goodMember m = true) :
    destStep (p, openCtl n) m =
      (if n = "SnapshotDates".data then
        match collectDate m with
        | some t => { p with SnapshotDates := p.SnapshotDates ++ [t] }
        | none => p
      else if n = "AttemptDates".data then
        match collectDate m with
        | some t => { p with AttemptDates := p.AttemptDates ++ [t] }
        | none => p
      else p, openCtl n) := by
  have hnm : ∀ c ∈ m, c ∈ (['=', '(', ')', '{', '}'] : List Char) → False := by
    unfold goodMember at hm
    intro c hc hmem
    have hx := (List.all_eq_true.mp hm) c hc
    fin_cases hmem <;> simp at hx
  have hTeq : '=' ∉ trimChars m :=
    fun h => hnm '=' (mem_trimChars h) (by decide)
  have hTpo : '(' ∉ trimChars m :=
    fun h => hnm '(' (mem_trimChars h) (by decide)
  have hTpc : ')' ∉ trimChars m :=
    fun h => hnm ')' (mem_trimChars h) (by decide)
  have hTop : '{' ∉ trimChars m :=
    fun h => hnm '{' (mem_trimChars h) (by decide)
  have hTcl : '}' ∉ trimChars m :=
    fun h => hnm '}' (mem_trimChars h) (by decide)
  have hcont : containsSubL sepEq (trimChars m) = false :=
    containsSubL_false_of_not_mem (c := '=') (by decide) hTeq
  have hopen : (openCtl n).stopped = false ∧ (openCtl n).inDest = true ∧
      (openCtl n).inSnapshots = decide (n = "SnapshotDates".data) ∧
      (openCtl n).inAttempts = decide (n = "AttemptDates".data) := by
    unfold openCtl
    by_cases h1 : n = "SnapshotDates".data
    · simp [h1, midCtl]
    · by_cases h2 : n = "AttemptDates".data
      · simp [h1, h2, midCtl]
      · simp [h1, h2, midCtl]
  simp only [destStep, hopen.1, hopen.2.1, Bool.not_true, Bool.false_eq_true,
    if_false, hcont]
  rw [if_neg (by
    rintro (he | he)
    · exact hTpo (by rw [he]; simp)
    · exact hTop (by rw [he]; simp))]
  rw [if_neg (by
    rintro (he | he)
    · exact hTpc (by rw [he]; simp)
    · exact hTpc (by rw [he]; simp))]
  rw [if_neg (by
    rintro (he | he)
    · exact hTcl (by rw [he]; simp)
    · exact hTcl (by rw [he]; simp))]
  by_cases h1 : n = "SnapshotDates".data
  · rw [if_pos (Or.inl (by rw [hopen.2.2.1]; simp [h1]))]
    rcases hcd : collectDate m with _ | t
    · simp only [hcd]
      rw [if_pos h1]
    · simp only [hcd]
      rw [if_pos (show (openCtl n).inSnapshots = true from by
        rw [hopen.2.2.1]; simp [h1])]
      rw [if_pos h1]
  · by_cases h2 : n = "AttemptDates".data
    · rw [if_pos (Or.inr (by rw [hopen.2.2.2]; simp [h2]))]
      rcases hcd : collectDate m with _ | t
      · simp only [hcd]
        rw [if_neg h1, if_pos h2]
      · simp only [hcd]
        rw [if_neg (show ¬ (openCtl n).inSnapshots = true from by
          rw [hopen.2.2.1]; simp [h1])]
        rw [if_neg h1, if_pos h2]
    · rw [if_neg (by
        rw [hopen.2.2.1, hopen.2.2.2]
        simp [h1, h2])]
      rw [if_neg h1, if_neg h2]

theorem destStep_closer (p : BackupPrefs) (n : List Char)
    (hn : goodName n = true) :
    destStep (p, openCtl n) [')', ';'] = (p, midCtl) := by
  by_cases h1 : n = "SnapshotDates".data
  · subst h1; rfl
  · by_cases h2 : n = "AttemptDates".data
    · subst h2; rfl
    · have hne := goodName_ne_nil hn
      have hoc : openCtl n = { midCtl with inArray := n } := by
        simp [openCtl, h1, h2]
      rw [hoc]
      simp only [destStep, midCtl, Bool.not_true, Bool.false_eq_true, if_false,
        (by decide : trimChars [')', ';'] = [')', ';']),
        (by decide : containsSubL sepEq [')', ';'] = false)]
      rw [if_pos (Or.inl trivial)]
      rw [if_pos hne]
      simp [midCtl]

theorem destFold_members (n : List Char) (ms : List (List Char))
    (p : BackupPrefs) (hm : ∀ m ∈ ms, goodMember m = true) :
    List.foldl destStep (p, openCtl n) ms =
      ({ p with
          SnapshotDates := p.SnapshotDates ++
            (if n = "SnapshotDates".data then ms.filterMap collectDate else []),
          AttemptDates := p.AttemptDates ++
            (if n = "AttemptDates".data then ms.filterMap collectDate else []) },
        openCtl n) := by
  induction ms generalizing p with
  | nil => simp
  | cons m t ih =>
    rw [List.foldl_cons, destStep_member p n m (hm m (by simp))]
    by_cases h1 : n = "SnapshotDates".data
    · rw [if_pos h1]
      rcases hcd : collectDate m with _ | x
      · rw [ih _ (fun y hy => hm y (by simp [hy]))]
        simp [h1, hcd, List.filterMap_cons]
      · rw [ih _ (fun y hy => hm y (by simp [hy]))]
        simp [h1, hcd, List.filterMap_cons, List.append_assoc]
    · rw [if_neg h1]
      by_cases h2 : n = "AttemptDates".data
      · rw [if_pos h2]
        rcases hcd : collectDate m with _ | x
        · rw [ih _ (fun y hy => hm y (by simp [hy]))]
          simp [h1, h2, hcd, List.filterMap_cons]
        · rw [ih _ (fun y hy => hm y (by simp [hy]))]
          simp [h1, h2, hcd, List.filterMap_cons, List.append_assoc]
      · rw [if_neg h2, ih _ (fun y hy => hm y (by simp [hy]))]
        simp [h1, h2]

theorem destFold_block (n : List Char) (ms : List (List Char)) (p : BackupPrefs)
    (hn : goodName n = true) (hm : ∀ m ∈ ms, goodMember m = true) :
    List.foldl destStep (p, midCtl) (arrayBlockLines n ms) =
      ({ p with
          SnapshotDates := p.SnapshotDates ++
            (if n = "SnapshotDates".data then ms.filterMap collectDate else []),
          AttemptDates := p.AttemptDates ++
            (if n = "AttemptDates".data then ms.filterMap collectDate else []) },
        midCtl) := by
  unfold arrayBlockLines
  rw [List.foldl_append,
    show List.foldl destStep (p, midCtl) ((n ++ " = (".data) :: ms)
      = List.foldl destStep (destStep (p, midCtl) (n ++ " = (".data)) ms from rfl,
    destStep_opener p n hn, destFold_members n ms p hm,
    show ∀ x : BackupPrefs × DestCtl,
      List.foldl destStep x [[')', ';']] = destStep x [')', ';'] from fun x => rfl,
    destStep_closer _ n hn]

theorem blockDates_cons (name : List Char) (b : List Char × List (List Char))
    (bs : List (List Char × List (List Char))) :
    blockDates name (b :: bs) =
      (if b.1 = name then b.2.filterMap collectDate else []) ++ blockDates name bs := by
  unfold blockDates
  by_cases h : b.1 = name
  · simp [List.filter_cons, h]
  · simp [List.filter_cons, h]

theorem destFold_blocks (blocks : List (List Char × List (List Char)))
    (p : BackupPrefs)
    (hn : ∀ b ∈ blocks, goodName b.1 = true)
    (hm : ∀ b ∈ blocks, ∀ m ∈ b.2, goodMember m = true) :
    List.foldl destStep (p, midCtl)
        ((blocks.map (fun b => arrayBlockLines b.1 b.2)).flatten) =
      ({ p with
          SnapshotDates := p.SnapshotDates ++ blockDates "SnapshotDates".data blocks,
          AttemptDates := p.AttemptDates ++ blockDates "AttemptDates".data blocks },
        midCtl) := by
  induction blocks generalizing p with
  | nil => simp [blockDates]
  | cons b bs ih =>
    rw [List.map_cons, List.flatten_cons, List.foldl_append,
      destFold_block b.1 b.2 p (hn b (by simp)) (hm b (by simp)),
      ih _ (fun y hy => hn y (by simp [hy])) (fun y hy => hm y (by simp [hy])),
      blockDates_cons, blockDates_cons]
    by_cases h1 : b.1 = "SnapshotDates".data
    · simp [h1, List.append_assoc]
    · by_cases h2 : b.1 = "AttemptDates".data
      · simp [h1, h2, List.append_assoc]
      · simp [h1, h2]

theorem topStep_dates (p : BackupPrefs) (l : List Char) :
    (topStep p l).SnapshotDates = p.SnapshotDates ∧
    (topStep p l).AttemptDates = p.AttemptDates := by
  rcases h : splitFirstAux sepEq (trimSuffixL [';'] (trimChars l)) with _ | ⟨a, b⟩
  · simp [topStep, h]
  · simp only [topStep, h]
    split <;> simp

theorem topFold_dates (ls : List (List Char)) (p : BackupPrefs) :
    (ls.foldl topStep p).SnapshotDates = p.SnapshotDates ∧
    (ls.foldl topStep p).AttemptDates = p.AttemptDates := by
  induction ls generalizing p with
  | nil => exact ⟨rfl, rfl⟩
  | cons l t ih =>
    rw [List.foldl_cons]
    obtain ⟨h1, h2⟩ := topStep_dates p l
    obtain ⟨h3, h4⟩ := ih (topStep p l)
    exact ⟨h3.trans h1, h4.trans h2⟩

/-- C7: parsing a destinations document whose first destination holds any
sequence of well-formed named-array blocks populates `SnapshotDates`
exclusively from the members of blocks named `SnapshotDates` and
`AttemptDates` exclusively from blocks named `AttemptDates` — never
positionally from another array: `blockDates` filters the blocks by their
own name, keeps their members in source order (`filterMap` of the quoted
member collector) and excludes the structural opener and closer lines, and
the contents of arrays under any other name are discarded. -/
theorem prefs_named_arrays (blocks : List (List Char × List (List Char)))
    (hn : ∀ b ∈ blocks, goodName b.1 = true)
    (hm : ∀ b ∈ blocks, ∀ m ∈ b.2, goodMember m = true) :
    (parsePrefsL (destDoc blocks)).SnapshotDates
        = blockDates "SnapshotDates".data blocks ∧
    (parsePrefsL (destDoc blocks)).AttemptDates
        = blockDates "AttemptDates".data blocks := by
  have hpd := topFold_dates (destDoc blocks) {}
  have h1 : ∀ q : BackupPrefs,
      destStep (q, ({} : DestCtl)) ("Destinations = (".data)
        = (q, { ({} : DestCtl) with inDest := true }) := fun q => rfl
  have h2 : ∀ q : BackupPrefs,
      destStep (q, { ({} : DestCtl) with inDest := true }) ['{'] = (q, midCtl) :=
    fun q => rfl
  have h3 : ∀ q : BackupPrefs,
      destStep (q, midCtl) ['}', ';']
        = (q, { midCtl with depth := 0, stopped := true }) := fun q => rfl
  have h4 : ∀ q : BackupPrefs,
      destStep (q, { midCtl with depth := 0, stopped := true }) [')', ';']
        = (q, { midCtl with depth := 0, stopped := true }) := fun q => rfl
  have hdoc : destDoc blocks = "Destinations = (".data :: ['{'] ::
      ((blocks.map (fun b => arrayBlockLines b.1 b.2)).flatten
        ++ [['}', ';'], [')', ';']]) := rfl
  unfold parsePrefsL
  generalize hq : (destDoc blocks).foldl topStep {} = p₀
  rw [hq] at hpd
  simp only [show (({} : BackupPrefs)).SnapshotDates = [] from rfl,
    show (({} : BackupPrefs)).AttemptDates = [] from rfl] at hpd
  rw [hdoc, List.foldl_cons, h1 p₀, List.foldl_cons, h2 p₀, List.foldl_append,
    destFold_blocks blocks p₀ hn hm, List.foldl_cons, h3 _, List.foldl_cons,
    h4 _, List.foldl_nil]
  constructor
  · show p₀.SnapshotDates ++ _ = _
    rw [hpd.1]
    simp
  · show p₀.AttemptDates ++ _ = _
    rw [hpd.2]
    simp

/-- A destinations region with a snapshot array, an unrelated named array
between the two of interest, and an attempt array. -/
def demoBlocks : List (List Char × List (List Char)) :=
  [("SnapshotDates".data, ["\"2026-02-01 10:00:00 +0000\",".data]),
   ("DestinationUUIDs".data, ["\"2026-02-02 10:00:00 +0000\",".data]),
   ("AttemptDates".data, ["\"2026-02-03 10:00:00 +0000\",".data])]

/-- C7 witness: on the demo document the snapshot sequence takes only the
snapshot array's member and the unrelated array's date is discarded. -/
theorem prefs_named_arrays_witness :
    (parsePrefsL (destDoc demoBlocks)).SnapshotDates
        = blockDates "SnapshotDates".data demoBlocks ∧
    blockDates "SnapshotDates".data demoBlocks = [civilSeconds 2026 2 1 10 0 0] ∧
    blockDates "AttemptDates".data demoBlocks = [civilSeconds 2026 2 3 10 0 0] :=
  ⟨(prefs_named_arrays demoBlocks (by decide) (by decide)).1, by decide, by decide⟩

end TMCli
